import Mathlib

/-!
# gistcafe-go `inspect`: the struct-to-map flattening engine

A shallow embedding of `src/inspect/inspect.go` (the part archived from
`fatih/structs`): `parseTag`, `tagOptions.Has`, `strctVal`, `New`, `Map`,
`Struct.structFields`, `Struct.FillMap` and `Struct.nested`; and of what is
built on it: `Contains`, `AllKeys`, `AsInterfaces`, `asInterfaceMap`,
`TableOptions.PrintDumpTable` and `Vars`.

Go values reached through `reflect` are modelled by the inductive type `Val`
(finite trees, so cyclic object graphs are outside the model).  A panic is an
`Except.error`.  What the model abstracts:

* a field's `tag` is the text `field.Tag.Get(s.TagName)` returns, so the tag
  namespace (`DefaultTagName`) is already resolved;
* a field's `stringer` is the outcome of `val.Interface().(fmt.Stringer)`
  followed by `String()`;
* a `map[string]interface{}` is an association list with distinct keys; a
  `range` over it, or `MapKeys`, visits the entries in list order, so that two
  lists with the same entries are the same Go map as two iterations see it;
* the `tablewriter` table is what `SetHeader` and `Append` are called with,
  `fmt.Sprintf("%v", ·)` is a parameter, and so are the orders in which
  `MapKeys` returns the keys of the flattened rows;
* the file system is a map from paths to files and directories, and the text
  `encoding/json` writes for `objs` is a parameter.
-/

namespace Inspect

/-! ## Types and values -/

/-- The kinds of `reflect.Kind`. -/
inductive Kind where
  | Invalid | Bool | Int | Int8 | Int16 | Int32 | Int64
  | Uint | Uint8 | Uint16 | Uint32 | Uint64 | Uintptr
  | Float32 | Float64 | Complex64 | Complex128
  | Array | Chan | Func | Interface | Map | Ptr | Slice | String | Struct
  | UnsafePointer
deriving DecidableEq, Repr

/-- The kinds whose values hold nothing the package looks into (numbers,
booleans, channels, functions, unsafe pointers). -/
inductive Scalar where
  | Bool | Int | Int8 | Int16 | Int32 | Int64
  | Uint | Uint8 | Uint16 | Uint32 | Uint64 | Uintptr
  | Float32 | Float64 | Complex64 | Complex128
  | Chan | Func | UnsafePointer
deriving DecidableEq, Repr

/-- The `reflect.Kind` of a scalar kind. -/
def Scalar.Kind : Scalar → Kind
  | .Bool => .Bool | .Int => .Int | .Int8 => .Int8 | .Int16 => .Int16
  | .Int32 => .Int32 | .Int64 => .Int64
  | .Uint => .Uint | .Uint8 => .Uint8 | .Uint16 => .Uint16
  | .Uint32 => .Uint32 | .Uint64 => .Uint64 | .Uintptr => .Uintptr
  | .Float32 => .Float32 | .Float64 => .Float64
  | .Complex64 => .Complex64 | .Complex128 => .Complex128
  | .Chan => .Chan | .Func => .Func | .UnsafePointer => .UnsafePointer

/-- A Go type as far as `reflect.Type` is consulted: its kind, its element
type (`Elem()`) and its text (`String()`).  Struct, interface and scalar types
are identified by name. -/
inductive GoType where
  | scalar (k : Scalar) (name : String)
  | string (name : String)
  | struct (name : String)
  | iface (name : String)
  | ptr (elem : GoType)
  | slice (elem : GoType)
  | array (len : Nat) (elem : GoType)
  | map (key elem : GoType)
deriving DecidableEq, Repr

/-- The method `Type.Kind()`. -/
def GoType.Kind : GoType → Kind
  | .scalar k _ => k.Kind
  | .string _ => .String
  | .struct _ => .Struct
  | .iface _ => .Interface
  | .ptr _ => .Ptr
  | .slice _ => .Slice
  | .array _ _ => .Array
  | .map _ _ => .Map

/-- The method `Type.String()`. -/
def GoType.String : GoType → String
  | .scalar _ name => name
  | .string name => name
  | .struct name => name
  | .iface name => name
  | .ptr e => "*" ++ e.String
  | .slice e => "[]" ++ e.String
  | .array n e => "[" ++ toString n ++ "]" ++ e.String
  | .map k e => "map[" ++ k.String ++ "]" ++ e.String

/-- The predeclared type `string`. -/
def GoType.str : GoType := .string "string"

/-- The empty interface type `interface{}`. -/
def GoType.any : GoType := .iface "interface {}"

mutual
/-- A Go value as `reflect` sees it in a slot (struct field, map element, slice
element).  A slot of interface type is `iface dyn` or `nilIface`; `nilIface`
also stands for the untyped `nil` and for the zero `reflect.Value`.
`mapSI` is a non-nil `map[string]interface{}`, whose elements are stored
without the `iface` wrapper; `map` is a non-nil map of any other type. -/
inductive Val where
  | nilIface : Val
  | iface (dyn : Val) : Val
  | scalar (k : Scalar) (n : Int) : Val
  | str (s : String) : Val
  | struct (name : String) (fields : List Field) : Val
  | nilPtr : Val
  | ptr (target : Val) : Val
  | nilMap (key elem : GoType) : Val
  | map (key elem : GoType) (entries : List Entry) : Val
  | mapSI (entries : List (String × Val)) : Val
  | nilSlice (elem : GoType) : Val
  | slice (elem : GoType) (elems : List Val) : Val
  | array (elem : GoType) (elems : List Val) : Val
/-- A field of a struct value: `reflect.StructField` (`Name`, `PkgPath`, the
tag text under the tag name) together with the field's current value and the
result of its `String()` method when the value is a `fmt.Stringer`. -/
inductive Field where
  | mk (Name : String) (PkgPath : String) (tag : String) (val : Val)
      (stringer : Option String) : Field
/-- One key/element pair of a Go map. -/
inductive Entry where
  | mk (key : Val) (elem : Val) : Entry
end

/-- The declared name of a field. -/
def Field.Name : Field → String
  | .mk n _ _ _ _ => n

/-- The package path of a field: empty exactly for exported fields. -/
def Field.PkgPath : Field → String
  | .mk _ p _ _ _ => p

/-- The raw tag of a field, `field.Tag.Get(s.TagName)`. -/
def Field.tag : Field → String
  | .mk _ _ t _ _ => t

/-- The current value of a field, `s.value.FieldByName(field.Name)`: the
direct fields of a struct have distinct names and shadow promoted ones. -/
def Field.val : Field → Val
  | .mk _ _ _ v _ => v

/-- The assertion `val.Interface().(fmt.Stringer)` followed by `String()`:
`none` when the assertion fails, as it always does on a nil interface. -/
def Field.Stringer : Field → Option String
  | .mk _ _ _ .nilIface _ => none
  | .mk _ _ _ _ s => s

/-- The panics the package can raise. -/
inductive Panic where
  | notStruct
  | interfaceConversion
  | indexOutOfRange
  | nonSlice
deriving DecidableEq, Repr

/-- A `map[string]interface{}`. -/
abbrev GoMap := List (String × Val)

/-- The lookup `m[k]` with its presence flag. -/
def GoMap.get? : GoMap → String → Option Val
  | [], _ => none
  | (k', v) :: rest, k => if k' = k then some v else GoMap.get? rest k

/-- The assignment `m[k] = v`. -/
def GoMap.set : GoMap → String → Val → GoMap
  | [], k, v => [(k, v)]
  | (k', v') :: rest, k, v =>
    if k' = k then (k, v) :: rest else (k', v') :: GoMap.set rest k v

/-- The keys of a mapping. -/
def GoMap.keys (m : GoMap) : List String := m.map Prod.fst

/-- The value of the index expression `m[k]`: `nil` for a missing key. -/
def GoMap.index (m : GoMap) (k : String) : Val :=
  match m.get? k with
  | some v => v
  | none => .nilIface

/-- The loop `for k := range src { out[k] = src[k] }`. -/
def GoMap.merge (out src : GoMap) : GoMap :=
  src.keys.foldl (fun o k => GoMap.set o k (src.index k)) out

/-! ## reflect primitives -/

/-- The method `Value.Kind()`. -/
def Val.Kind : Val → Kind
  | .nilIface => .Invalid
  | .iface _ => .Interface
  | .scalar k _ => k.Kind
  | .str _ => .String
  | .struct _ _ => .Struct
  | .nilPtr => .Ptr
  | .ptr _ => .Ptr
  | .nilMap _ _ => .Map
  | .map _ _ _ => .Map
  | .mapSI _ => .Map
  | .nilSlice _ => .Slice
  | .slice _ _ => .Slice
  | .array _ _ => .Array

/-- The method `Value.Interface()`: the dynamic value held by a slot. -/
def Val.Interface : Val → Val
  | .iface d => d
  | v => v

/-- The function `reflect.ValueOf`.  An argument of type `interface{}` (of
`ValueOf`, `New`, `Map`) is represented by the value it holds, `nilIface` for
`nil`, so `ValueOf` hands its argument back: the zero `Value` for `nil`. -/
def ValueOf (i : Val) : Val := i

/-- The method `Value.Elem()` on a pointer or interface: the zero `Value` for
a nil one. -/
def Val.Elem : Val → Val
  | .ptr t => t
  | .iface d => d
  | _ => .nilIface

/-- The step `if v.Kind() == reflect.Ptr { v = v.Elem() }`. -/
def derefOnce (v : Val) : Val :=
  if v.Kind = .Ptr then v.Elem else v

/-- The loop `for v.Kind() == reflect.Ptr { v = v.Elem() }`. -/
def derefAll : Val → Val
  | .ptr t => derefAll t
  | .nilPtr => .nilIface
  | v => v

/-- The fields of a struct value, in declaration order. -/
def Val.Fields : Val → List Field
  | .struct _ fs => fs
  | _ => []

mutual
/-- The test `reflect.DeepEqual(val.Interface(), reflect.Zero(val.Type()).Interface())`. -/
def DeepEqualZero : Val → Bool
  | .nilIface => true
  | .iface _ => false
  | .scalar _ n => n == 0
  | .str s => s == ""
  | .struct _ fs => DeepEqualZeroFields fs
  | .nilPtr => true
  | .ptr _ => false
  | .nilMap _ _ => true
  | .map _ _ _ => false
  | .mapSI _ => false
  | .nilSlice _ => true
  | .slice _ _ => false
  | .array _ xs => DeepEqualZeroElems xs
/-- Every field of a struct, exported or not, is the zero value. -/
def DeepEqualZeroFields : List Field → Bool
  | [] => true
  | .mk _ _ _ v _ :: rest => DeepEqualZero v && DeepEqualZeroFields rest
/-- Every element of an array is the zero value. -/
def DeepEqualZeroElems : List Val → Bool
  | [] => true
  | v :: rest => DeepEqualZero v && DeepEqualZeroElems rest
end

/-! ## Tag parsing -/

/-- The function `strings.Split(s, ",")` on the characters of `s`. -/
def splitComma : List Char → List (List Char)
  | [] => [[]]
  | c :: cs =>
    if c = ',' then [] :: splitComma cs
    else
      match splitComma cs with
      | [] => [[c]]
      | seg :: segs => (c :: seg) :: segs

/-- The type `tagOptions`. -/
abbrev tagOptions := List String

/-- The method `tagOptions.Has`. -/
def tagOptions.Has (t : tagOptions) (opt : String) : Bool :=
  t.any (fun tagOpt => tagOpt == opt)

/-- The function `parseTag`: `res[0], res[1:]` of the split tag; indexing an
empty `res` would panic. -/
def parseTag (tag : String) : Except Panic (String × tagOptions) :=
  match (splitComma tag.data).map String.mk with
  | [] => .error .indexOutOfRange
  | name :: opts => .ok (name, opts)

/-! ## Flattening -/

/-- The function `strctVal`. -/
def strctVal (s : Val) : Except Panic Val :=
  let v := derefAll (ValueOf s)
  if v.Kind ≠ .Struct then .error .notStruct else .ok v

/-- The `isSubStruct` flag of `FillMap` (lines 275-283). -/
def isSubStruct (val : Val) : Bool :=
  let v := derefOnce (ValueOf val.Interface)
  v.Kind = .Map || v.Kind = .Struct

/-- The assertion `finalVal.(map[string]interface{})`: it succeeds on a
`map[string]interface{}`, nil or not, and on nothing else. -/
def asMapSI : Val → Option GoMap
  | .mapSI m => some m
  | .nilMap k e => if k = GoType.str ∧ e = GoType.any then some [] else none
  | _ => none

/-- The test of `structFields` that keeps a field: exported and not tagged
`"-"`. -/
def Field.kept (f : Field) : Bool :=
  f.PkgPath == "" && f.tag != "-"

/-- The body of the loop of `FillMap` (lines 251-302) for one field, given the
result `nestedVal` of `s.nested(val)`, which is consulted only on the path
where the source calls it. -/
def fieldStep (nestedVal : Except Panic Val) (field : Field) (out : GoMap) :
    Except Panic GoMap :=
  match parseTag field.tag with
  | .error e => .error e
  | .ok (tagName, tagOpts) =>
    let name := if tagName ≠ "" then tagName else field.Name
    if tagOpts.Has "omitempty" && DeepEqualZero field.val then .ok out
    else
      let staged : Except Panic (Val × Bool) :=
        if !tagOpts.Has "omitnested" then
          match nestedVal with
          | .error e => .error e
          | .ok finalVal => .ok (finalVal, isSubStruct field.val)
        else .ok (field.val.Interface, false)
      match staged with
      | .error e => .error e
      | .ok (finalVal, sub) =>
        if tagOpts.Has "string" then
          match field.Stringer with
          | some s => .ok (out.set name (.str s))
          | none => .ok out
        else if sub && tagOpts.Has "flatten" then
          match asMapSI finalVal with
          | some m => .ok (out.merge m)
          | none => .error .interfaceConversion
        else .ok (out.set name finalVal)

/-- The map-element type inspected by `nested` for a map value of static type
`map[K]elem` (lines 329-337). -/
def mapElemOf (elem : GoType) : GoType :=
  match elem with
  | .ptr e => e
  | e => e

/-- The test of lines 341-343: the element type is a struct or a slice of
structs. -/
def descendsMap (mapElem : GoType) : Bool :=
  match mapElem with
  | .struct _ => true
  | .slice e => e.Kind = .Struct
  | _ => false

/-- The negation of the test of lines 364-366: the element type is a struct or
a pointer to a struct. -/
def descendsSlice (elem : GoType) : Bool :=
  match elem with
  | .struct _ => true
  | .ptr e => e.Kind = .Struct
  | _ => false

/-- The method `Value.String()` of a map key of static type `kt`. -/
def keyString (kt : GoType) (k : Val) : String :=
  match kt.Kind, k with
  | .String, .str s => s
  | .String, _ => ""
  | _, _ => "<" ++ kt.String ++ " Value>"

mutual
/-- The method `Struct.nested` (lines 306-381), by cases on the slot `val`.
The switch is on the kind of `v`, the value of `val` taken out of its
interface and of one pointer.  Struct (lines 315-326): the four shapes of `val`
with such a `v`; `New(val.Interface()).Map()` runs the loop of `FillMap` on the
fields of `v` (`nested_of_struct`).  Map (lines 327-353): the element type is
read off `val.Type()`, so the entries are visited only when `val` itself has
map kind; behind a pointer or in an interface `mapElem` is a map or interface
type and the raw value is returned.  Slice, array (lines 354-375): likewise,
line 355 returns the raw value of an interface slot and `val.Type().Elem()` of
a pointer is the slice type.  Every other shape, nil pointers and nil
interfaces among them, is the default case (line 377). -/
def nested : Val → Except Panic Val
  | .struct n fs =>
    match fillFields fs [] with
    | .error e => .error e
    | .ok m => .ok (if m.length = 0 then .struct n fs else .mapSI m)
  | .ptr (.struct n fs) =>
    match fillFields fs [] with
    | .error e => .error e
    | .ok m => .ok (if m.length = 0 then .ptr (.struct n fs) else .mapSI m)
  | .iface (.struct n fs) =>
    match fillFields fs [] with
    | .error e => .error e
    | .ok m => .ok (if m.length = 0 then .struct n fs else .mapSI m)
  | .iface (.ptr (.struct n fs)) =>
    match fillFields fs [] with
    | .error e => .error e
    | .ok m => .ok (if m.length = 0 then .ptr (.struct n fs) else .mapSI m)
  | .map k e es =>
    if descendsMap (mapElemOf e) then
      match nestedEntries k es [] with
      | .error err => .error err
      | .ok m => .ok (.mapSI m)
    else .ok (.map k e es)
  | .nilMap k e =>
    if descendsMap (mapElemOf e) then .ok (.mapSI []) else .ok (.nilMap k e)
  | .slice e xs =>
    if descendsSlice e then
      match nestedElems xs with
      | .error err => .error err
      | .ok ys => .ok (.slice GoType.any ys)
    else .ok (.slice e xs)
  | .nilSlice e =>
    if descendsSlice e then .ok (.slice GoType.any []) else .ok (.nilSlice e)
  | .array e xs =>
    if descendsSlice e then
      match nestedElems xs with
      | .error err => .error err
      | .ok ys => .ok (.slice GoType.any ys)
    else .ok (.array e xs)
  | v => .ok v.Interface
/-- The loop of `FillMap` over all the fields of a struct, skipping the ones
`structFields` leaves out. -/
def fillFields : List Field → GoMap → Except Panic GoMap
  | [], out => .ok out
  | .mk n p t v s :: rest, out =>
    if (Field.mk n p t v s).kept then
      match fieldStep (nested v) (.mk n p t v s) out with
      | .error e => .error e
      | .ok out1 => fillFields rest out1
    else fillFields rest out
/-- The loop of lines 371-374 over the elements of a slice or array. -/
def nestedElems : List Val → Except Panic (List Val)
  | [] => .ok []
  | x :: xs =>
    match nested x with
    | .error e => .error e
    | .ok y =>
      match nestedElems xs with
      | .error e => .error e
      | .ok ys => .ok (y :: ys)
/-- The loop of lines 345-347 over the entries of a map with key type `kt`. -/
def nestedEntries (kt : GoType) : List Entry → GoMap → Except Panic GoMap
  | [], m => .ok m
  | .mk k x :: rest, m =>
    match nested x with
    | .error e => .error e
    | .ok y => nestedEntries kt rest (m.set (keyString kt k) y)
end

/-- The type `Struct` (its `TagName` is resolved in the fields' tags). -/
structure Struct where
  raw : Val
  value : Val

/-- The function `New`. -/
def New (s : Val) : Except Panic Struct :=
  match strctVal s with
  | .error e => .error e
  | .ok v => .ok { raw := s, value := v }

/-- The method `Struct.structFields`. -/
def Struct.structFields (s : Struct) : List Field :=
  s.value.Fields.filter Field.kept

/-- The loop of `FillMap` over the fields `structFields` returned. -/
def fillLoop : List Field → GoMap → Except Panic GoMap
  | [], out => .ok out
  | field :: rest, out =>
    match fieldStep (nested field.val) field out with
    | .error e => .error e
    | .ok out1 => fillLoop rest out1

/-- The method `Struct.FillMap` on a non-nil `out`. -/
def Struct.FillMap (s : Struct) (out : GoMap) : Except Panic GoMap :=
  fillLoop s.structFields out

/-- The method `Struct.Map`. -/
def Struct.Map (s : Struct) : Except Panic GoMap :=
  s.FillMap []

/-- The function `Map`. -/
def Map (s : Val) : Except Panic GoMap :=
  match New s with
  | .error e => .error e
  | .ok n => n.Map

/-- The keys the loop body of `FillMap` writes for `field`: the keys of the
mapping it makes of an empty one (none when it panics). -/
def writtenKeys (field : Field) : List String :=
  match fieldStep (nested field.val) field [] with
  | .ok m => m.keys
  | .error _ => []

/-- The effective key of a field whose tag parses to the name `tagName`
(lines 251-259). -/
def effectiveKey (tagName : String) (field : Field) : String :=
  if tagName ≠ "" then tagName else field.Name

/-- The value `v` behind `n` non-nil pointers. -/
def ptrWrap : Nat → Val → Val
  | 0, v => v
  | n + 1, v => .ptr (ptrWrap n v)

/-- The exported fields of a struct value: those with an empty `PkgPath`. -/
def exportedFields (fs : List Field) : List Field :=
  fs.filter (fun f => f.PkgPath == "")

/-! ## Key aggregation -/

/-- The function `Contains`. -/
def Contains (s : List String) (str : String) : Bool :=
  s.any (fun v => v == str)

/-- The inner loop of `AllKeys` (lines 54-59) over the keys `MapKeys` returned,
in the order it returned them. -/
def appendNew (allKeys : List String) (keys : List String) : List String :=
  keys.foldl (fun acc key => if !Contains acc key then acc ++ [key] else acc) allKeys

/-- The function `AllKeys`.  `MapKeys` returns the keys of a mapping in an
order the runtime chooses at each call; the order of the entries of a `GoMap`
stands for the order of that call. -/
def AllKeys (objsMapList : List GoMap) : List String :=
  objsMapList.foldl (fun allKeys objsMap => appendNew allKeys objsMap.keys) []

/-! ## The table -/

/-- The method `Value.IsNil()`. -/
def Val.IsNil : Val → Bool
  | .nilIface => true
  | .nilPtr => true
  | .nilMap _ _ => true
  | .nilSlice _ => true
  | _ => false

/-- The elements `s.Index(0)`, ..., `s.Index(s.Len() - 1)` of a slice or
array. -/
def Val.Elems : Val → List Val
  | .slice _ xs => xs
  | .array _ xs => xs
  | _ => []

/-- The function `AsInterfaces`; the result `none` is the nil slice. -/
def AsInterfaces (slice : Val) : Except Panic (Option (List Val)) :=
  let s := ValueOf slice
  if s.Kind ≠ .Slice then .error .nonSlice
  else if s.IsNil then .ok none
  else .ok (some (s.Elems.map Val.Interface))

/-- The loop of `asInterfaceMap` over the elements of `objs`. -/
def asInterfaceMapLoop : List Val → Except Panic (List GoMap)
  | [] => .ok []
  | element :: rest =>
    match Map element with
    | .error e => .error e
    | .ok m =>
      match asInterfaceMapLoop rest with
      | .error e => .error e
      | .ok ms => .ok (m :: ms)

/-- The function `asInterfaceMap`: a `range` over the nil slice visits
nothing. -/
def asInterfaceMap (objs : Option (List Val)) : Except Panic (List GoMap) :=
  match objs with
  | none => .ok []
  | some xs => asInterfaceMapLoop xs

/-- What `PrintDumpTable` hands to the `tablewriter` table before `Filter` and
`Render`: the argument of `SetHeader` and the arguments of the calls of
`Append`, in order. -/
structure Table where
  header : List String
  rows : List (List String)

/-- The type `TableOptions`, as far as the rows depend on it: `Headers`, with
`none` for the nil slice. -/
structure TableOptions where
  Headers : Option (List String)

/-- The mapping `m` as a call of `MapKeys` that returns its keys in the order
`keys` sees it: the entries of `m` in that order. -/
def GoMap.inOrder (m : GoMap) (keys : List String) : GoMap :=
  keys.map (fun k => (k, GoMap.index m k))

/-- The method `TableOptions.PrintDumpTable` up to the call of `Filter`;
`sprint` is `fmt.Sprintf("%v", ·)`.  The runtime chooses the order in which
`MapKeys` returns the keys of each mapping inside `AllKeys` (line 54):
`orders` holds that order for each flattened element in turn, a permutation of
the keys of its mapping. -/
def TableOptions.PrintDumpTable (options : TableOptions) (sprint : Val → String)
    (orders : List (List String)) (slice : Val) : Except Panic Table :=
  match AsInterfaces slice with
  | .error e => .error e
  | .ok objs =>
    match asInterfaceMap objs with
    | .error e => .error e
    | .ok objsMapList =>
      let headers :=
        match options.Headers with
        | none => AllKeys (List.zipWith GoMap.inOrder objsMapList orders)
        | some h => h
      .ok { header := headers,
            rows := objsMapList.map
              (fun e => headers.map (fun k => sprint (GoMap.index e k))) }

/-! ## The snapshot file -/

/-- What the file system holds at a path: a regular file with its content, or
a directory. -/
inductive Node where
  | file (content : List Char)
  | dir
deriving DecidableEq, Repr

/-- A file system the process may write everywhere: what is at each path, a
path being the list of its components. -/
abbrev FileSystem := List String → Option Node

/-- The file system with `node` at `path`. -/
def FileSystem.put (fs : FileSystem) (path : List String) (node : Node) : FileSystem :=
  fun p => if p = path then some node else fs p

/-- There is a directory at `path`. -/
def FileSystem.isDir (fs : FileSystem) (path : List String) : Bool :=
  match fs path with
  | some .dir => true
  | _ => false

/-- The test `os.IsNotExist(err)` on the error of `os.Stat(path)`: nothing is
at the path. -/
def statNotExist (fs : FileSystem) (path : List String) : Bool :=
  (fs path).isNone

/-- The call `os.Mkdir(path, 0755)`, its error dropped: it makes a directory
at `path` when nothing is there and the parent of `path` is a directory, and
changes nothing otherwise. -/
def Mkdir (fs : FileSystem) (path : List String) : FileSystem :=
  if (fs path).isNone && fs.isDir path.dropLast then fs.put path .dir else fs

/-- The call `os.OpenFile(path, os.O_CREATE|os.O_WRONLY, 0644)`: `none` when
it fails (a directory is at `path`, or nothing is and the parent is no
directory), else the file system with the file there, made empty when it was
not there.  The file is opened at offset 0 and is not truncated. -/
def OpenFile (fs : FileSystem) (path : List String) : Option FileSystem :=
  match fs path with
  | some (.file _) => some fs
  | some .dir => none
  | none => if fs.isDir path.dropLast then some (fs.put path (.file [])) else none

/-- The content of a file after `text` is written at offset 0 over `old`. -/
def writeAtStart (old text : List Char) : List Char :=
  text ++ old.drop text.length

/-- The function `Vars`, and `vars` of `Inspect.go`, which has the same body.
`env` is the result of `os.LookupEnv("INSPECT_VARS")`, `none` when the
variable is not set; `encoded` is the text `encoder.Encode(data)` writes for
`objs`, `none` when `json.Marshal(objs)` fails. -/
def Vars (env : Option (List String)) (encoded : Option (List Char)) (fs : FileSystem) :
    FileSystem :=
  match env with
  | none => fs
  | some inspectVarsPath =>
    match encoded with
    | none => fs
    | some text =>
      let fs1 := if statNotExist fs inspectVarsPath then Mkdir fs inspectVarsPath else fs
      match OpenFile fs1 inspectVarsPath with
      | none => fs1
      | some fs2 =>
        match fs2 inspectVarsPath with
        | some (.file old) => fs2.put inspectVarsPath (.file (writeAtStart old text))
        | _ => fs2

/-- The key of a map entry. -/
def Entry.key : Entry → Val
  | .mk k _ => k

/-- The element of a map entry. -/
def Entry.elem : Entry → Val
  | .mk _ x => x

/-! ## Example values -/

/-- An exported field without `String()` method. -/
def field (name tag : String) (val : Val) : Field :=
  .mk name "" tag val none

/-- An `int`. -/
def int (n : Int) : Val := .scalar .Int n

/-- The record `struct { Name string; Age int; secret int }` with the values
`{"Alice", 30, 7}`, no field tagged. -/
def person : Val :=
  .struct "Person"
    [field "Name" "" (.str "Alice"), field "Age" "" (int 30),
      .mk "secret" "main" "" (int 7) none]

/-- The type `time.Time`, a record without exported field. -/
def timeValue : Val :=
  .struct "time.Time"
    [.mk "wall" "time" "" (.scalar .Uint64 5) none,
      .mk "ext" "time" "" (.scalar .Int64 9) none,
      .mk "loc" "time" "" .nilPtr none]

/-- The record `struct { When time.Time "structs:\",flatten\"" }`. -/
def eventRecord : Val :=
  .struct "Event" [field "When" ",flatten" timeValue]

/-- The record `struct { Counts map[string]int "structs:\",flatten\"" }`
holding the map `{"a": 1}`. -/
def countsRecord : Val :=
  .struct "Stats"
    [field "Counts" ",flatten"
      (.map GoType.str (.scalar .Int "int") [.mk (.str "a") (int 1)])]

/-- The record `struct { X int; Y int }` with the values `{x, y}`. -/
def innerRecord (x y : Int) : Val :=
  .struct "Inner" [field "X" "" (int x), field "Y" "" (int y)]

/-- The record `struct { Inner Inner }` around `{1, 2}`, with the given tag
on its field. -/
def outerRecord (tag : String) : Val :=
  .struct "Outer" [field "Inner" tag (innerRecord 1 2)]

/-- The record `struct { In In "structs:\",flatten\"" }` around the record
`struct { In int; Y int }` with the values `{1, 2}`: the nested record has a
field named like the field that holds it. -/
def sameNameRecord : Val :=
  .struct "Outer"
    [field "In" ",flatten" (.struct "In" [field "In" "" (int 1), field "Y" "" (int 2)])]

/-- The record `struct { Id int; Inner Inner "structs:\",flatten\""; Z int }`
with the values `{7, {1, 2}, 3}`. -/
def flatRecord : Val :=
  .struct "Flat"
    ([field "Id" "" (int 7)] ++ field "Inner" ",flatten" (innerRecord 1 2) ::
      [field "Z" "" (int 3)])

/-- The record `struct { Name string; Age int "structs:\",omitempty\"" }`
with the values `{"Alice", age}`. -/
def aliceRecord (age : Int) : Val :=
  .struct "Person" ([field "Name" "" (.str "Alice")] ++ field "Age" ",omitempty" (int age) :: [])

/-- The record `struct { A int "structs:\"k,omitempty\""; B int "structs:\"k\"" }`
with the values `{0, 5}`: two fields renamed to the same key. -/
def sameKeyRecord : Val :=
  .struct "Pair" [field "A" "k,omitempty" (int 0), field "B" "k" (int 5)]

/-- The record `struct { Id int; Inner Inner; Z int }` with the values
`{7, {1, 2}, 3}` and the given tag on `Inner`. -/
def taggedRecord (tag : String) : Val :=
  .struct "Tagged"
    ([field "Id" "" (int 7)] ++ field "Inner" tag (innerRecord 1 2) ::
      [field "Z" "" (int 3)])

/-- A field `Inner` holding `{1, 2}`, of a type with or without a `String()`
method. -/
def innerField (tag : String) (stringer : Option String) : Field :=
  .mk "Inner" "" tag (innerRecord 1 2) stringer

/-- The mapping `{"a": 1, "b": 2}` as a call of `MapKeys` that returns `a`
first sees it. -/
def abMap : GoMap := [("a", int 1), ("b", int 2)]

/-- The same mapping as a call of `MapKeys` that returns `b` first sees it. -/
def baMap : GoMap := [("b", int 2), ("a", int 1)]

/-- A text form that tells `nil`, the integers 1 and 2 and everything else
apart. -/
def sprintSample : Val → String
  | .nilIface => "<nil>"
  | .scalar _ 1 => "1"
  | .scalar _ 2 => "2"
  | _ => "?"

/-- The slice of the records `struct { X int; Y int }{1, 2}` and
`struct { X int }{2}`. -/
def twoRecords : Val :=
  .slice GoType.any [.iface (innerRecord 1 2), .iface (.struct "Single" [field "X" "" (int 2)])]

/-- A file system with the directories `/` and `/tmp` and nothing else. -/
def tmpOnly : FileSystem :=
  fun p => if p = [] ∨ p = ["tmp"] then some .dir else none

/-- The path `/tmp/vars.json`. -/
def varsPath : List String := ["tmp", "vars.json"]

/-- The text `Encode` writes for the empty mapping: the JSON string of the
bytes of its JSON text, and a newline. -/
def emptyPayload : List Char := "\"e30=\"\n".data

/-- A file system as `tmpOnly` with a regular file of the given content at
`/tmp/vars.json`. -/
def withVarsFile (content : List Char) : FileSystem :=
  tmpOnly.put varsPath (.file content)

/-- The record `struct { A int "structs:\"k\""; Inner Inner "structs:\",flatten\""; B int "structs:\"X\"" }`
with the values `{5, {1, 2}, 9}`: `B` is renamed to the key `X` that the
merge of `Inner` writes before it. -/
def collidingRecord : Val :=
  .struct "Colliding"
    ([field "A" "k" (int 5)] ++ field "Inner" ",flatten" (innerRecord 1 2) ::
      ([] ++ field "B" "X" (int 9) :: []))

/-- The map `map[int]Inner{1: {1, 2}, 2: {3, 4}}`. -/
def intKeyed : Val :=
  .map (.scalar .Int "int") (.struct "Inner")
    [.mk (int 1) (innerRecord 1 2), .mk (int 2) (innerRecord 3 4)]

/-- The map `map[string]Inner{"a": {1, 2}, "b": {3, 4}}`. -/
def stringKeyed : Val :=
  .map GoType.str (.struct "Inner")
    [.mk (.str "a") (innerRecord 1 2), .mk (.str "b") (innerRecord 3 4)]

/-- The map `map[string]*[]Inner{"a": &[]Inner{{1, 2}}}`. -/
def ptrSliceKeyed : Val :=
  .map GoType.str (.ptr (.slice (.struct "Inner")))
    [.mk (.str "a") (.ptr (.slice (.struct "Inner") [innerRecord 1 2]))]

/-- The slice `[]*Inner{&{1, 2}, nil}`. -/
def pointerSlice : Val :=
  .slice (.ptr (.struct "Inner")) [.ptr (innerRecord 1 2), .nilPtr]

/-- A field `B` holding `eventRecord`, of a type whose `String()` method
returns `bad`. -/
def badField (tag : String) : Field :=
  .mk "B" "" tag eventRecord (some "bad")

/-! ## Mappings: lookup after assignment and after a merge -/

theorem GoMap.get?_set_self (m : GoMap) (k : String) (v : Val) :
    (m.set k v).get? k = some v := by
  induction m with
  | nil => simp [GoMap.set, GoMap.get?]
  | cons kv rest ih =>
    obtain ⟨k1, v1⟩ := kv
    by_cases h : k1 = k
    · simp [GoMap.set, GoMap.get?, h]
    · simp [GoMap.set, GoMap.get?, h, ih]

theorem GoMap.get?_set_other (m : GoMap) (k k2 : String) (v : Val) (h : k ≠ k2) :
    (m.set k v).get? k2 = m.get? k2 := by
  induction m with
  | nil => simp [GoMap.set, GoMap.get?, h]
  | cons kv rest ih =>
    obtain ⟨k1, v1⟩ := kv
    by_cases h1 : k1 = k
    · subst h1
      simp [GoMap.set, GoMap.get?, h]
    · by_cases h2 : k1 = k2
      · subst h2
        simp [GoMap.set, GoMap.get?, h1]
      · simp [GoMap.set, GoMap.get?, h1, h2, ih]

theorem GoMap.get?_eq_none_iff (m : GoMap) (k : String) :
    m.get? k = none ↔ k ∉ m.keys := by
  induction m with
  | nil => simp [GoMap.get?, GoMap.keys]
  | cons kv rest ih =>
    obtain ⟨k1, v1⟩ := kv
    by_cases h : k1 = k
    · simp [GoMap.get?, GoMap.keys, h]
    · have h2 : ¬ k = k1 := fun e => h e.symm
      simpa [GoMap.get?, GoMap.keys, h, h2] using ih

theorem GoMap.set_of_not_mem (m : GoMap) (k : String) (v : Val) (h : k ∉ m.keys) :
    m.set k v = m ++ [(k, v)] := by
  induction m with
  | nil => simp [GoMap.set]
  | cons kv rest ih =>
    obtain ⟨k1, v1⟩ := kv
    have h1 : ¬ k1 = k := by
      intro e
      apply h
      simp [GoMap.keys, e]
    have h2 : k ∉ GoMap.keys rest := by
      intro e
      apply h
      simp only [GoMap.keys, List.map_cons, List.mem_cons]
      exact Or.inr e
    simp [GoMap.set, h1, ih h2]

theorem GoMap.keys_set (m : GoMap) (k k2 : String) (v : Val) :
    k2 ∈ (m.set k v).keys ↔ k2 = k ∨ k2 ∈ m.keys := by
  induction m with
  | nil => simp [GoMap.set, GoMap.keys]
  | cons kv rest ih =>
    obtain ⟨k1, v1⟩ := kv
    by_cases h : k1 = k
    · subst h
      simp [GoMap.set, GoMap.keys]
    · simp only [GoMap.keys] at ih
      simp only [GoMap.set, h, GoMap.keys, if_false, List.map_cons, List.mem_cons, ih]
      tauto

/-- The lookup after the loop `for k in ks { out[k] = src[k] }`. -/
theorem GoMap.get?_foldl_set (src : GoMap) (ks : List String) (out : GoMap) (k : String) :
    (ks.foldl (fun o k1 => GoMap.set o k1 (src.index k1)) out).get? k =
      if k ∈ ks then some (src.index k) else out.get? k := by
  induction ks generalizing out with
  | nil => simp
  | cons k1 rest ih =>
    simp only [List.foldl_cons, ih, List.mem_cons]
    by_cases h : k ∈ rest
    · simp [h]
    · by_cases h1 : k = k1
      · subst h1
        simp [h, GoMap.get?_set_self]
      · have h2 : k1 ≠ k := fun e => h1 e.symm
        simp [h, h1, GoMap.get?_set_other _ _ _ _ h2]

theorem GoMap.get?_merge_of_not_mem (out src : GoMap) (k : String) (h : k ∉ src.keys) :
    (out.merge src).get? k = out.get? k := by
  simp [GoMap.merge, GoMap.get?_foldl_set, h]

theorem GoMap.get?_merge_of_mem (out src : GoMap) (k : String) (h : k ∈ src.keys) :
    (out.merge src).get? k = src.get? k := by
  have hs : src.get? k ≠ none := by
    rw [Ne, GoMap.get?_eq_none_iff]
    exact fun hn => hn h
  rw [GoMap.merge, GoMap.get?_foldl_set, if_pos h]
  cases hv : src.get? k with
  | none => exact absurd hv hs
  | some v => simp [GoMap.index, hv]

theorem GoMap.keys_merge (out src : GoMap) (k : String) :
    k ∈ (out.merge src).keys ↔ k ∈ out.keys ∨ k ∈ src.keys := by
  by_cases h : k ∈ src.keys
  · have h1 := GoMap.get?_merge_of_mem out src k h
    have h2 : (out.merge src).get? k ≠ none := by
      rw [h1, Ne, GoMap.get?_eq_none_iff]
      exact fun hn => hn h
    rw [Ne, GoMap.get?_eq_none_iff, not_not] at h2
    simp [h, h2]
  · have h1 := GoMap.get?_merge_of_not_mem out src k h
    have h2 := GoMap.get?_eq_none_iff (out.merge src) k
    have h3 := GoMap.get?_eq_none_iff out k
    rw [h1] at h2
    simp only [h, or_false]
    constructor
    · intro hk
      by_contra hc
      exact (h2.mp (h3.mpr hc)) hk
    · intro hk
      by_contra hc
      exact (h3.mp (h2.mpr hc)) hk

/-! ## The loop of `FillMap` and the struct case of `nested` -/

/-- The loop over all the fields is the loop over what `structFields` keeps. -/
theorem fillFields_eq_fillLoop (fs : List Field) (out : GoMap) :
    fillFields fs out = fillLoop (fs.filter Field.kept) out := by
  induction fs generalizing out with
  | nil => simp [fillFields, fillLoop]
  | cons f rest ih =>
    obtain ⟨n, p, t, v, s⟩ := f
    by_cases hk : (Field.mk n p t v s).kept = true
    · simp only [fillFields, hk, if_true, List.filter_cons_of_pos, fillLoop, Field.val]
      cases fieldStep (nested v) (Field.mk n p t v s) out with
      | error e => rfl
      | ok out1 => exact ih out1
    · rw [List.filter_cons_of_neg hk]
      simp only [fillFields, hk]
      simpa using ih out

theorem fillLoop_append (l1 l2 : List Field) (out : GoMap) :
    fillLoop (l1 ++ l2) out =
      match fillLoop l1 out with
      | .error e => .error e
      | .ok out1 => fillLoop l2 out1 := by
  induction l1 generalizing out with
  | nil => simp [fillLoop]
  | cons f rest ih =>
    simp only [List.cons_append, fillLoop]
    cases fieldStep (nested f.val) f out with
    | error e => rfl
    | ok out1 => exact ih out1

/-- The function `Map` on a value `strctVal` accepts. -/
theorem Map_of_strctVal (R v : Val) (h : strctVal R = .ok v) :
    Map R = fillLoop (v.Fields.filter Field.kept) [] := by
  simp [Map, New, h, Struct.Map, Struct.FillMap, Struct.structFields]

theorem Map_struct (n : String) (fs : List Field) :
    Map (.struct n fs) = fillLoop (fs.filter Field.kept) [] :=
  Map_of_strctVal _ (.struct n fs) rfl

theorem Map_ptr_struct (n : String) (fs : List Field) :
    Map (.ptr (.struct n fs)) = fillLoop (fs.filter Field.kept) [] :=
  Map_of_strctVal _ (.struct n fs) rfl

/-- The struct case of `nested` as the source writes it (lines 315-326):
`m := New(val.Interface()).Map()`, then the raw value when `len(m) == 0`. -/
theorem nested_of_struct (val : Val)
    (h : (derefOnce (ValueOf val.Interface)).Kind = .Struct) :
    nested val =
      match Map val.Interface with
      | .error e => .error e
      | .ok m => .ok (if m.length = 0 then val.Interface else .mapSI m) := by
  cases val with
  | struct n fs => simp only [nested, Val.Interface, Map_struct, fillFields_eq_fillLoop]
  | ptr t =>
    cases t with
    | struct n fs => simp only [nested, Val.Interface, Map_ptr_struct, fillFields_eq_fillLoop]
    | scalar k m => cases k <;> simp [derefOnce, ValueOf, Val.Interface, Val.Kind, Val.Elem, Scalar.Kind] at h
    | _ => simp [derefOnce, ValueOf, Val.Interface, Val.Kind, Val.Elem] at h
  | iface d =>
    cases d with
    | struct n fs => simp only [nested, Val.Interface, Map_struct, fillFields_eq_fillLoop]
    | ptr t =>
      cases t with
      | struct n fs =>
        simp only [nested, Val.Interface, Map_ptr_struct, fillFields_eq_fillLoop]
      | scalar k m => cases k <;> simp [derefOnce, ValueOf, Val.Interface, Val.Kind, Val.Elem, Scalar.Kind] at h
      | _ => simp [derefOnce, ValueOf, Val.Interface, Val.Kind, Val.Elem] at h
    | scalar k m => cases k <;> simp [derefOnce, ValueOf, Val.Interface, Val.Kind, Val.Elem, Scalar.Kind] at h
    | _ => simp [derefOnce, ValueOf, Val.Interface, Val.Kind, Val.Elem] at h
  | scalar k m => cases k <;> simp [derefOnce, ValueOf, Val.Interface, Val.Kind, Val.Elem, Scalar.Kind] at h
  | _ => simp [derefOnce, ValueOf, Val.Interface, Val.Kind, Val.Elem] at h

/-! ## One turn of the loop -/

/-- One turn of the loop panics, leaves the mapping alone, assigns one key or
merges one mapping, the same whatever the mapping so far. -/
theorem fieldStep_shape (nv : Except Panic Val) (f : Field) :
    (∃ e, ∀ out, fieldStep nv f out = .error e) ∨
    (∀ out, fieldStep nv f out = .ok out) ∨
    (∃ k v, ∀ out, fieldStep nv f out = .ok (GoMap.set out k v)) ∨
    (∃ m, ∀ out, fieldStep nv f out = .ok (GoMap.merge out m)) := by
  rcases hp : parseTag f.tag with e | ⟨tn, opts⟩
  · exact Or.inl ⟨e, fun out => by simp [fieldStep, hp]⟩
  · by_cases h1 : (tagOptions.Has opts "omitempty" && DeepEqualZero f.val) = true
    · exact Or.inr (Or.inl (fun out => by simp [fieldStep, hp, h1]))
    · by_cases h2 : tagOptions.Has opts "omitnested" = true
      · by_cases h3 : tagOptions.Has opts "string" = true
        · cases hs : f.Stringer with
          | none => exact Or.inr (Or.inl (fun out => by simp [fieldStep, hp, h1, h2, h3, hs]))
          | some str =>
            exact Or.inr (Or.inr (Or.inl ⟨_, _, fun out => by
              simp [fieldStep, hp, h1, h2, h3, hs]; rfl⟩))
        · exact Or.inr (Or.inr (Or.inl ⟨_, _, fun out => by
            simp [fieldStep, hp, h1, h2, h3]; rfl⟩))
      · rcases nv with e | fv
        · exact Or.inl ⟨e, fun out => by simp [fieldStep, hp, h1, h2]⟩
        · by_cases h3 : tagOptions.Has opts "string" = true
          · cases hs : f.Stringer with
            | none =>
              exact Or.inr (Or.inl (fun out => by simp [fieldStep, hp, h1, h2, h3, hs]))
            | some str =>
              exact Or.inr (Or.inr (Or.inl ⟨_, _, fun out => by
                simp [fieldStep, hp, h1, h2, h3, hs]; rfl⟩))
          · by_cases h4 : (isSubStruct f.val && tagOptions.Has opts "flatten") = true
            · cases hm : asMapSI fv with
              | none =>
                exact Or.inl ⟨_, fun out => by
                  simp [fieldStep, hp, h1, h2, h3, h4, hm]; rfl⟩
              | some m =>
                exact Or.inr (Or.inr (Or.inr ⟨m, fun out => by
                  simp [fieldStep, hp, h1, h2, h3, h4, hm]⟩))
            · exact Or.inr (Or.inr (Or.inl ⟨_, _, fun out => by
                simp [fieldStep, hp, h1, h2, h3, h4]; rfl⟩))

/-- A key the turn of `f` does not write keeps its entry, or its absence. -/
theorem fieldStep_frame (nv : Except Panic Val) (f : Field) (out out1 : GoMap) (k : String)
    (h : fieldStep nv f out = .ok out1)
    (hk : ∀ m, fieldStep nv f [] = .ok m → k ∉ GoMap.keys m) :
    out1.get? k = out.get? k := by
  rcases fieldStep_shape nv f with ⟨e, he⟩ | hs | ⟨k1, v, hs⟩ | ⟨m, hs⟩
  · rw [he] at h
    cases h
  · rw [hs] at h
    cases h
    rfl
  · rw [hs] at h
    cases h
    have h1 := hk _ (hs [])
    have h2 : k1 ≠ k := by
      intro e
      apply h1
      simp [GoMap.set, GoMap.keys, e]
    exact GoMap.get?_set_other _ _ _ _ h2
  · rw [hs] at h
    cases h
    have h1 := hk _ (hs [])
    have h2 : k ∉ GoMap.keys m := by
      intro e
      apply h1
      exact (GoMap.keys_merge [] m k).mpr (Or.inr e)
    exact GoMap.get?_merge_of_not_mem _ _ _ h2

/-- No turn of the loop removes a key. -/
theorem fieldStep_keys_mono (nv : Except Panic Val) (f : Field) (out out1 : GoMap)
    (k : String) (h : fieldStep nv f out = .ok out1) (hk : k ∈ GoMap.keys out) :
    k ∈ GoMap.keys out1 := by
  rcases fieldStep_shape nv f with ⟨e, he⟩ | hs | ⟨k1, v, hs⟩ | ⟨m, hs⟩
  · rw [he] at h
    cases h
  · rw [hs] at h
    cases h
    exact hk
  · rw [hs] at h
    cases h
    exact (GoMap.keys_set _ _ _ _).mpr (Or.inr hk)
  · rw [hs] at h
    cases h
    exact (GoMap.keys_merge _ _ _).mpr (Or.inl hk)

theorem not_mem_writtenKeys (g : Field) (k : String) (h : k ∉ writtenKeys g) :
    ∀ m, fieldStep (nested g.val) g [] = .ok m → k ∉ GoMap.keys m := by
  intro m hm
  simpa [writtenKeys, hm] using h

/-- A key none of the fields writes keeps its entry, or its absence, through
the loop. -/
theorem fillLoop_frame (l : List Field) (out m : GoMap) (k : String)
    (h : fillLoop l out = .ok m) (hk : ∀ g ∈ l, k ∉ writtenKeys g) :
    m.get? k = out.get? k := by
  induction l generalizing out with
  | nil =>
    simp only [fillLoop] at h
    cases h
    rfl
  | cons f rest ih =>
    simp only [fillLoop] at h
    cases hf : fieldStep (nested f.val) f out with
    | error e =>
      rw [hf] at h
      cases h
    | ok out1 =>
      rw [hf] at h
      have h1 := fieldStep_frame _ f out out1 k hf
        (not_mem_writtenKeys f k (hk f (List.mem_cons_self _ _)))
      rw [ih out1 h (fun g hg => hk g (List.mem_cons_of_mem _ hg)), h1]

/-- The loop removes no key. -/
theorem fillLoop_keys_mono (l : List Field) (out m : GoMap) (k : String)
    (h : fillLoop l out = .ok m) (hk : k ∈ GoMap.keys out) : k ∈ GoMap.keys m := by
  induction l generalizing out with
  | nil =>
    simp only [fillLoop] at h
    cases h
    exact hk
  | cons f rest ih =>
    simp only [fillLoop] at h
    cases hf : fieldStep (nested f.val) f out with
    | error e =>
      rw [hf] at h
      cases h
    | ok out1 =>
      rw [hf] at h
      exact ih out1 h (fieldStep_keys_mono _ f out out1 k hf hk)

/-- The run of `Map` on a struct, split at one of the fields `structFields`
keeps: the fields before it, its own turn, the fields after it. -/
theorem Map_split (n : String) (pre post : List Field) (F : Field) (hF : F.kept = true) :
    Map (.struct n (pre ++ F :: post)) =
      match fillLoop (pre.filter Field.kept) [] with
      | .error e => .error e
      | .ok out =>
        match fieldStep (nested F.val) F out with
        | .error e => .error e
        | .ok out1 => fillLoop (post.filter Field.kept) out1 := by
  rw [Map_struct, List.filter_append, List.filter_cons_of_pos hF, fillLoop_append]
  cases fillLoop (pre.filter Field.kept) [] with
  | error e => rfl
  | ok out => simp only [fillLoop]

/-! ## Untagged records -/

theorem parseTag_empty : parseTag "" = .ok ("", []) := rfl

/-- The turn of a field without tag: `out[field.Name] = s.nested(val)`. -/
theorem fieldStep_untagged (nv : Except Panic Val) (f : Field) (out : GoMap)
    (ht : f.tag = "") :
    fieldStep nv f out =
      match nv with
      | .error e => .error e
      | .ok fv => .ok (GoMap.set out f.Name fv) := by
  cases nv with
  | error e => simp [fieldStep, ht, parseTag_empty, tagOptions.Has]
  | ok fv => simp [fieldStep, ht, parseTag_empty, tagOptions.Has]

theorem fillLoop_untagged (l : List Field) (out : GoMap)
    (htag : ∀ f ∈ l, f.tag = "")
    (hnames : (l.map Field.Name).Nodup)
    (hout : ∀ f ∈ l, f.Name ∉ GoMap.keys out) (m : GoMap) :
    fillLoop l out = .ok m ↔
      ∃ es, List.Forall₂ (fun f kv => kv.1 = f.Name ∧ nested f.val = .ok kv.2) l es ∧
        m = out ++ es := by
  induction l generalizing out with
  | nil =>
    simp only [fillLoop, List.forall₂_nil_left_iff, exists_eq_left, List.append_nil]
    constructor
    · intro h
      cases h
      rfl
    · intro h
      rw [h]
  | cons f rest ih =>
    have ht : f.tag = "" := htag f (List.mem_cons_self _ _)
    have hn : f.Name ∉ GoMap.keys out := hout f (List.mem_cons_self _ _)
    rw [List.map_cons, List.nodup_cons] at hnames
    simp only [fillLoop, fieldStep_untagged _ f out ht]
    cases hv : nested f.val with
    | error e =>
      constructor
      · intro h
        cases h
      · rintro ⟨es, hes, -⟩
        cases hes with
        | cons h1 h2 =>
          rw [hv] at h1
          cases h1.2
    | ok fv =>
      have hrest : ∀ g ∈ rest, g.Name ∉ GoMap.keys (GoMap.set out f.Name fv) := by
        intro g hg hmem
        rcases (GoMap.keys_set _ _ _ _).mp hmem with h1 | h1
        · exact hnames.1 (h1 ▸ List.mem_map_of_mem Field.Name hg)
        · exact hout g (List.mem_cons_of_mem _ hg) h1
      simp only
      rw [ih (GoMap.set out f.Name fv) (fun g hg => htag g (List.mem_cons_of_mem _ hg))
        hnames.2 hrest, GoMap.set_of_not_mem out _ _ hn]
      constructor
      · rintro ⟨es, hes, rfl⟩
        exact ⟨(f.Name, fv) :: es, List.Forall₂.cons ⟨rfl, hv⟩ hes, by simp⟩
      · rintro ⟨es, hes, rfl⟩
        cases hes with
        | @cons _ kv _ es1 h1 h2 =>
          obtain ⟨k1, v1⟩ := kv
          obtain ⟨hk, hv1⟩ := h1
          simp only at hk hv1
          rw [hv] at hv1
          cases hv1
          subst hk
          exact ⟨es1, h2, by simp⟩

/-- C1. For every record `R` (a struct, or pointers down to one) none of whose
exported fields carries a tag, the declared names of the exported fields being
distinct: `Map(R)` returns the mapping `m` exactly when `m` lists, for each
exported field of `R` in turn and for nothing else, the field's declared name
with `nested` of the field's value.  Unexported fields contribute no entry,
and `Map(R)` panics exactly when `nested` panics on one of the values. -/
theorem Map_untagged (R : Val) (n : String) (fs : List Field)
    (hR : strctVal R = .ok (.struct n fs))
    (htag : ∀ f ∈ fs, f.PkgPath = "" → f.tag = "")
    (hnames : ((exportedFields fs).map Field.Name).Nodup) (m : GoMap) :
    Map R = .ok m ↔
      List.Forall₂ (fun f kv => kv.1 = f.Name ∧ nested f.val = .ok kv.2)
        (exportedFields fs) m := by
  have hfilter : fs.filter Field.kept = exportedFields fs := by
    apply List.filter_congr
    intro f hf
    by_cases hp : f.PkgPath = ""
    · simp [Field.kept, hp, htag f hf hp]
    · simp [Field.kept, hp]
  rw [Map_of_strctVal R _ hR, Val.Fields, hfilter,
    fillLoop_untagged (exportedFields fs) [] _ hnames (by simp [GoMap.keys]) m]
  · simp
  · intro f hf
    have h1 := List.mem_filter.mp hf
    exact htag f h1.1 (by simpa using h1.2)

/-- C1 at a pointer to `person`: the two exported fields, in order. -/
theorem Map_untagged_witness :
    Map (.ptr person) = .ok [("Name", .str "Alice"), ("Age", int 30)] :=
  (Map_untagged (.ptr person) "Person" person.Fields rfl
    (by simp [person, Val.Fields, field, Field.tag])
    (by decide) _).mpr
    (List.Forall₂.cons ⟨rfl, rfl⟩ (List.Forall₂.cons ⟨rfl, rfl⟩ List.Forall₂.nil))

/-! ## Panics -/

/-- C2. A record whose field is tagged `flatten` and holds a record without
exported field (`time.Time`), or a map whose elements are no records
(`map[string]int`): `strctVal` accepts the record, `nested` hands the field
value back raw, and `Map` panics in the assertion
`finalVal.(map[string]interface{})` of line 297. -/
theorem flatten_assertion_panics :
    strctVal eventRecord = .ok eventRecord ∧
    nested timeValue = .ok timeValue ∧
    Map eventRecord = .error .interfaceConversion ∧
    strctVal countsRecord = .ok countsRecord ∧
    Map countsRecord = .error .interfaceConversion :=
  ⟨rfl, rfl, rfl, rfl, rfl⟩

/-! ## The `flatten` option -/

/-- The turn of a field that is merged into its parent (lines 296-299). -/
theorem fieldStep_flatten (F : Field) (tn : String) (opts : tagOptions) (M out : GoMap)
    (hp : parseTag F.tag = .ok (tn, opts))
    (hfl : tagOptions.Has opts "flatten" = true)
    (hon : tagOptions.Has opts "omitnested" = false)
    (hst : tagOptions.Has opts "string" = false)
    (hoe : (tagOptions.Has opts "omitempty" && DeepEqualZero F.val) = false)
    (hsub : isSubStruct F.val = true)
    (hM : nested F.val = .ok (.mapSI M)) :
    fieldStep (nested F.val) F out = .ok (GoMap.merge out M) := by
  simp [fieldStep, hp, hfl, hon, hst, hoe, hsub, hM, asMapSI]

/-- C3, as stated, fails on four records whose only field is tagged `flatten`
and holds a record that flattens to two keys.  When the nested record has a
field named like its holder, the holder's own key `In` is in the output.  With
`omitempty` besides and the value `{0, 0}` the field is dropped: neither `X`
nor `Y` is in the output.  With `omitnested` besides the record is stored raw
under the field's own key.  With `string` besides, the value having no
`String()` method, nothing is output. -/
theorem flatten_counterexample :
    nested (.struct "In" [field "In" "" (int 1), field "Y" "" (int 2)]) =
      .ok (.mapSI [("In", int 1), ("Y", int 2)]) ∧
    Map sameNameRecord = .ok [("In", int 1), ("Y", int 2)] ∧
    nested (innerRecord 0 0) = .ok (.mapSI [("X", int 0), ("Y", int 0)]) ∧
    Map (.struct "Outer" [field "Inner" ",flatten,omitempty" (innerRecord 0 0)]) = .ok [] ∧
    nested (innerRecord 1 2) = .ok (.mapSI [("X", int 1), ("Y", int 2)]) ∧
    Map (outerRecord ",flatten,omitnested") = .ok [("Inner", innerRecord 1 2)] ∧
    Map (outerRecord ",flatten,string") = .ok [] :=
  ⟨rfl, rfl, rfl, rfl, rfl, rfl, rfl⟩

/-- C3, amended. Let `F` be a field `structFields` keeps, tagged `flatten` and
neither `omitnested` nor `string`, not dropped by `omitempty`, whose value is a
record (or a pointer to one) that `nested` flattens to the mapping `M`.  When
`Map` returns `m` for the parent: every key of `M` that no later field writes is
a key of `m` with the value it has in `M`, and `F`'s own key, when it is no key
of `M` and no other field writes it, is not in `m`. -/
theorem Map_flatten (n : String) (pre post : List Field) (F : Field) (tn : String)
    (opts : tagOptions) (M m : GoMap)
    (hF : F.kept = true)
    (hp : parseTag F.tag = .ok (tn, opts))
    (hfl : tagOptions.Has opts "flatten" = true)
    (hon : tagOptions.Has opts "omitnested" = false)
    (hst : tagOptions.Has opts "string" = false)
    (hoe : (tagOptions.Has opts "omitempty" && DeepEqualZero F.val) = false)
    (hrec : (derefOnce (ValueOf F.val.Interface)).Kind = .Struct)
    (hM : nested F.val = .ok (.mapSI M))
    (hm : Map (.struct n (pre ++ F :: post)) = .ok m) :
    (∀ k ∈ GoMap.keys M, (∀ g ∈ post, g.kept = true → k ∉ writtenKeys g) →
      m.get? k = M.get? k) ∧
    (effectiveKey tn F ∉ GoMap.keys M →
      (∀ g ∈ pre ++ post, g.kept = true → effectiveKey tn F ∉ writtenKeys g) →
      m.get? (effectiveKey tn F) = none) := by
  have hsub : isSubStruct F.val = true := by simp [isSubStruct, hrec]
  rw [Map_split n pre post F hF] at hm
  cases hpre : fillLoop (pre.filter Field.kept) [] with
  | error e =>
    rw [hpre] at hm
    cases hm
  | ok out =>
    rw [hpre] at hm
    simp only [fieldStep_flatten F tn opts M out hp hfl hon hst hoe hsub hM] at hm
    constructor
    · intro k hk hpost
      rw [fillLoop_frame _ _ m k hm
        (fun g hg => hpost g (List.mem_filter.mp hg).1 (List.mem_filter.mp hg).2)]
      exact GoMap.get?_merge_of_mem out M k hk
    · intro hown hothers
      rw [fillLoop_frame _ _ m _ hm
        (fun g hg => hothers g (List.mem_append_right _ (List.mem_filter.mp hg).1)
          (List.mem_filter.mp hg).2),
        GoMap.get?_merge_of_not_mem out M _ hown,
        fillLoop_frame _ _ out _ hpre
          (fun g hg => hothers g (List.mem_append_left _ (List.mem_filter.mp hg).1)
            (List.mem_filter.mp hg).2)]
      rfl

/-- C3, amended, at `flatRecord`: `X` and `Y` are merged between `Id` and `Z`,
and `Inner` is no key. -/
theorem Map_flatten_witness :
    Map flatRecord = .ok [("Id", int 7), ("X", int 1), ("Y", int 2), ("Z", int 3)] ∧
    GoMap.get? [("Id", int 7), ("X", int 1), ("Y", int 2), ("Z", int 3)] "Y" =
      GoMap.get? [("X", int 1), ("Y", int 2)] "Y" ∧
    GoMap.get? [("Id", int 7), ("X", int 1), ("Y", int 2), ("Z", int 3)] "Inner" = none :=
  have h := Map_flatten "Flat" [field "Id" "" (int 7)] [field "Z" "" (int 3)]
    (field "Inner" ",flatten" (innerRecord 1 2)) "" ["flatten"]
    [("X", int 1), ("Y", int 2)] [("Id", int 7), ("X", int 1), ("Y", int 2), ("Z", int 3)]
    rfl rfl rfl rfl rfl rfl rfl rfl rfl
  ⟨rfl,
    h.1 "Y" (by decide) (fun g hg _ => by rw [List.mem_singleton.mp hg]; decide),
    h.2 (by decide) (fun g hg _ => by
      simp only [List.singleton_append, List.mem_cons, List.mem_singleton,
        List.not_mem_nil, or_false] at hg
      rcases hg with rfl | rfl <;> decide)⟩

/-! ## The `omitempty` option -/

/-- The turn of a field dropped by `omitempty` (lines 263-270). -/
theorem fieldStep_omitempty_zero (nv : Except Panic Val) (F : Field) (tn : String)
    (opts : tagOptions) (out : GoMap)
    (hp : parseTag F.tag = .ok (tn, opts))
    (ho : tagOptions.Has opts "omitempty" = true) (hz : DeepEqualZero F.val = true) :
    fieldStep nv F out = .ok out := by
  simp [fieldStep, hp, ho, hz]

/-- The turn of a field that is neither dropped by `omitempty`, nor tagged
`string` without being a `fmt.Stringer`, nor merged by `flatten`, leaves the
field's effective key in the mapping. -/
theorem fieldStep_writes_key (nv : Except Panic Val) (F : Field) (tn : String)
    (opts : tagOptions) (out out1 : GoMap)
    (hp : parseTag F.tag = .ok (tn, opts))
    (hoe : (tagOptions.Has opts "omitempty" && DeepEqualZero F.val) = false)
    (hs : tagOptions.Has opts "string" = true → F.Stringer ≠ none)
    (hf : tagOptions.Has opts "string" = false → tagOptions.Has opts "flatten" = true →
      tagOptions.Has opts "omitnested" = false → isSubStruct F.val = false)
    (h : fieldStep nv F out = .ok out1) :
    effectiveKey tn F ∈ GoMap.keys out1 := by
  have hset : ∀ v, effectiveKey tn F ∈ GoMap.keys (GoMap.set out (effectiveKey tn F) v) :=
    fun v => (GoMap.keys_set _ _ _ _).mpr (Or.inl rfl)
  by_cases h3 : tagOptions.Has opts "string" = true
  · cases hstr : F.Stringer with
    | none => exact absurd hstr (hs h3)
    | some str =>
      by_cases h2 : tagOptions.Has opts "omitnested" = true
      · simp only [fieldStep, hp, hoe, h2, h3, hstr] at h
        simp only [Bool.false_eq_true, if_false, Bool.not_true, if_true] at h
        cases h
        exact hset _
      · rcases nv with e | fv
        · simp [fieldStep, hp, hoe, h2] at h
        · simp only [fieldStep, hp, hoe, h2, h3, hstr] at h
          simp only [Bool.false_eq_true, if_false, Bool.not_false, if_true] at h
          cases h
          exact hset _
  · have h3f : tagOptions.Has opts "string" = false := by simpa using h3
    by_cases h2 : tagOptions.Has opts "omitnested" = true
    · simp only [fieldStep, hp, hoe, h2, h3f] at h
      simp only [Bool.false_eq_true, if_false, Bool.not_true, Bool.false_and] at h
      cases h
      exact hset _
    · have h2f : tagOptions.Has opts "omitnested" = false := by simpa using h2
      rcases nv with e | fv
      · simp [fieldStep, hp, hoe, h2] at h
      · by_cases h4 : tagOptions.Has opts "flatten" = true
        · have hsub := hf h3f h4 h2f
          simp only [fieldStep, hp, hoe, h2f, h3f, hsub] at h
          simp only [Bool.false_eq_true, if_false, Bool.not_false, if_true,
            Bool.false_and] at h
          cases h
          exact hset _
        · have h4f : tagOptions.Has opts "flatten" = false := by simpa using h4
          simp only [fieldStep, hp, hoe, h2f, h3f, h4f] at h
          simp only [Bool.false_eq_true, if_false, Bool.not_false, if_true,
            Bool.and_false] at h
          cases h
          exact hset _

/-- C4, as stated, fails in both halves.  In `sameKeyRecord` the field `A` is
tagged `omitempty` and holds zero, yet its key `k` is in the output, written by
the field `B`.  In the second record the field `Inner` is tagged `omitempty`
and holds the non-zero `{1, 2}`, yet its key is not in the output: `flatten`
merged the value.  In the third the non-zero `N`, tagged `omitempty` and
`string`, has no `String()` method and makes no entry. -/
theorem omitempty_counterexample :
    DeepEqualZero (int 0) = true ∧
    Map sameKeyRecord = .ok [("k", int 5)] ∧
    DeepEqualZero (innerRecord 1 2) = false ∧
    Map (outerRecord ",omitempty,flatten") = .ok [("X", int 1), ("Y", int 2)] ∧
    DeepEqualZero (int 5) = false ∧
    Map (.struct "Num" [field "N" ",omitempty,string" (int 5)]) = .ok [] :=
  ⟨rfl, rfl, rfl, rfl, rfl, rfl⟩

/-- C4, amended. Let `F` be a field `structFields` keeps, tagged `omitempty`,
in a record for which `Map` returns `m`.  If `F`'s value deep-equals the zero
value of its type, `F` makes no entry: `Map` returns what it returns without
the field, and `F`'s key is not in `m` unless another field writes it.  If the
value is not the zero value, `F`'s key is in `m`, unless `F` is tagged `string`
and its value is no `fmt.Stringer`, or `flatten` merges its value (a record or
map, the field not being tagged `omitnested`) into the parent. -/
theorem Map_omitempty (n : String) (pre post : List Field) (F : Field) (tn : String)
    (opts : tagOptions) (m : GoMap)
    (hF : F.kept = true)
    (hp : parseTag F.tag = .ok (tn, opts))
    (ho : tagOptions.Has opts "omitempty" = true)
    (hm : Map (.struct n (pre ++ F :: post)) = .ok m) :
    (DeepEqualZero F.val = true →
      Map (.struct n (pre ++ post)) = .ok m ∧
      ((∀ g ∈ pre ++ post, g.kept = true → effectiveKey tn F ∉ writtenKeys g) →
        m.get? (effectiveKey tn F) = none)) ∧
    (DeepEqualZero F.val = false →
      (tagOptions.Has opts "string" = true → F.Stringer ≠ none) →
      (tagOptions.Has opts "string" = false → tagOptions.Has opts "flatten" = true →
        tagOptions.Has opts "omitnested" = false → isSubStruct F.val = false) →
      effectiveKey tn F ∈ GoMap.keys m) := by
  rw [Map_split n pre post F hF] at hm
  cases hpre : fillLoop (pre.filter Field.kept) [] with
  | error e =>
    rw [hpre] at hm
    cases hm
  | ok out =>
    rw [hpre] at hm
    simp only at hm
    constructor
    · intro hz
      rw [fieldStep_omitempty_zero _ F tn opts out hp ho hz] at hm
      simp only at hm
      have hwithout : Map (.struct n (pre ++ post)) = .ok m := by
        rw [Map_struct, List.filter_append, fillLoop_append, hpre]
        exact hm
      refine ⟨hwithout, fun hothers => ?_⟩
      rw [Map_struct] at hwithout
      rw [fillLoop_frame _ _ m _ hwithout
        (fun g hg => hothers g (List.mem_filter.mp hg).1 (List.mem_filter.mp hg).2)]
      rfl
    · intro hz hs hf
      cases hstep : fieldStep (nested F.val) F out with
      | error e =>
        rw [hstep] at hm
        cases hm
      | ok out1 =>
        rw [hstep] at hm
        exact fillLoop_keys_mono _ out1 m _ hm
          (fieldStep_writes_key _ F tn opts out out1 hp (by simp [hz]) hs hf hstep)

/-- C4, amended, at `aliceRecord`: `Age` is dropped when it is 0 and kept when
it is 30. -/
theorem Map_omitempty_witness :
    Map (aliceRecord 0) = .ok [("Name", .str "Alice")] ∧
    GoMap.get? [("Name", .str "Alice")] "Age" = none ∧
    Map (aliceRecord 30) = .ok [("Name", .str "Alice"), ("Age", int 30)] ∧
    "Age" ∈ GoMap.keys [("Name", .str "Alice"), ("Age", int 30)] :=
  ⟨rfl,
    ((Map_omitempty "Person" [field "Name" "" (.str "Alice")] []
      (field "Age" ",omitempty" (int 0)) "" ["omitempty"] [("Name", .str "Alice")]
      rfl rfl rfl rfl).1 rfl).2
      (fun g hg _ => by
        simp only [List.append_nil, List.mem_singleton] at hg
        rw [hg]
        decide),
    rfl,
    (Map_omitempty "Person" [field "Name" "" (.str "Alice")] []
      (field "Age" ",omitempty" (int 30)) "" ["omitempty"]
      [("Name", .str "Alice"), ("Age", int 30)] rfl rfl rfl rfl).2 rfl
      (fun h => by cases h) (fun _ h => by cases h)⟩

/-! ## The `omitnested` option -/

/-- The turn of a field tagged `omitnested` and not `string`:
`out[name] = val.Interface()`, whatever `nested` would give and whether or not
`flatten` is set. -/
theorem fieldStep_omitnested (nv : Except Panic Val) (F : Field) (tn : String)
    (opts : tagOptions) (out : GoMap)
    (hp : parseTag F.tag = .ok (tn, opts))
    (hon : tagOptions.Has opts "omitnested" = true)
    (hst : tagOptions.Has opts "string" = false)
    (hoe : (tagOptions.Has opts "omitempty" && DeepEqualZero F.val) = false) :
    fieldStep nv F out = .ok (GoMap.set out (effectiveKey tn F) F.val.Interface) := by
  simp [fieldStep, hp, hon, hst, hoe, effectiveKey]

/-- C5. Let `F` be a field `structFields` keeps, tagged `omitnested` and not
`string`, and not dropped by `omitempty`; `flatten` may be set or not.  The
turn of `F` is the assignment `out[key] = raw value`: `Map` runs the fields
before `F`, stores `F`'s raw value (a record stays the record) under `F`'s
effective key and goes on with the fields after `F`; nothing is merged.  When
`Map` returns `m` and no later field writes that key, `m[key]` is the raw
value. -/
theorem Map_omitnested (n : String) (pre post : List Field) (F : Field) (tn : String)
    (opts : tagOptions)
    (hF : F.kept = true)
    (hp : parseTag F.tag = .ok (tn, opts))
    (hon : tagOptions.Has opts "omitnested" = true)
    (hst : tagOptions.Has opts "string" = false)
    (hoe : (tagOptions.Has opts "omitempty" && DeepEqualZero F.val) = false) :
    (Map (.struct n (pre ++ F :: post)) =
      match fillLoop (pre.filter Field.kept) [] with
      | .error e => .error e
      | .ok out =>
        fillLoop (post.filter Field.kept)
          (GoMap.set out (effectiveKey tn F) F.val.Interface)) ∧
    (∀ m, Map (.struct n (pre ++ F :: post)) = .ok m →
      (∀ g ∈ post, g.kept = true → effectiveKey tn F ∉ writtenKeys g) →
      m.get? (effectiveKey tn F) = some F.val.Interface) := by
  have hsplit : Map (.struct n (pre ++ F :: post)) =
      match fillLoop (pre.filter Field.kept) [] with
      | .error e => .error e
      | .ok out =>
        fillLoop (post.filter Field.kept)
          (GoMap.set out (effectiveKey tn F) F.val.Interface) := by
    rw [Map_split n pre post F hF]
    cases fillLoop (pre.filter Field.kept) [] with
    | error e => rfl
    | ok out => simp only [fieldStep_omitnested _ F tn opts out hp hon hst hoe]
  refine ⟨hsplit, fun m hm hpost => ?_⟩
  rw [hsplit] at hm
  cases hpre : fillLoop (pre.filter Field.kept) [] with
  | error e =>
    rw [hpre] at hm
    cases hm
  | ok out =>
    rw [hpre] at hm
    rw [fillLoop_frame _ _ m _ hm
      (fun g hg => hpost g (List.mem_filter.mp hg).1 (List.mem_filter.mp hg).2)]
    exact GoMap.get?_set_self _ _ _

/-- C5 at `taggedRecord` with `omitnested` and `flatten` on `Inner`: the record
is stored raw. -/
theorem Map_omitnested_witness :
    Map (taggedRecord ",omitnested,flatten") =
      .ok [("Id", int 7), ("Inner", innerRecord 1 2), ("Z", int 3)] ∧
    GoMap.get? [("Id", int 7), ("Inner", innerRecord 1 2), ("Z", int 3)] "Inner" =
      some (innerRecord 1 2) :=
  ⟨rfl,
    (Map_omitnested "Tagged" [field "Id" "" (int 7)] [field "Z" "" (int 3)]
      (field "Inner" ",omitnested,flatten" (innerRecord 1 2)) "" ["omitnested", "flatten"]
      rfl rfl rfl rfl rfl).2 _ rfl
      (fun g hg _ => by rw [List.mem_singleton.mp hg]; decide)⟩

/-! ## The `string` option -/

/-- The turn of a field tagged `string` (lines 288-294), once `nested` has
returned where the source calls it. -/
theorem fieldStep_string (nv : Except Panic Val) (F : Field) (tn : String)
    (opts : tagOptions) (out : GoMap)
    (hp : parseTag F.tag = .ok (tn, opts))
    (hst : tagOptions.Has opts "string" = true)
    (hoe : (tagOptions.Has opts "omitempty" && DeepEqualZero F.val) = false)
    (hn : tagOptions.Has opts "omitnested" = true ∨ ∃ x, nv = .ok x) :
    fieldStep nv F out =
      .ok (match F.Stringer with
        | some s => GoMap.set out (effectiveKey tn F) (.str s)
        | none => out) := by
  by_cases h2 : tagOptions.Has opts "omitnested" = true
  · cases hs : F.Stringer <;> simp [fieldStep, hp, hst, hoe, h2, hs, effectiveKey]
  · rcases hn with h | ⟨x, rfl⟩
    · exact absurd h h2
    · cases hs : F.Stringer <;> simp [fieldStep, hp, hst, hoe, h2, hs, effectiveKey]

/-- Let `F` be a field `structFields` keeps, tagged `string` and not
dropped by `omitempty`.  Where `nested` returns on `F`'s value, or is not
called because of `omitnested`, the turn of `F` assigns `String()` of the value
to `F`'s effective key when the value is a `fmt.Stringer` and does nothing
otherwise; the result mentions neither `flatten` nor `omitnested`.  So when
`Map` returns `m`: with a `fmt.Stringer`, `m[key]` is the `String()` result
unless a later field writes that key; without, `key` is not in `m` unless
another field writes it. -/
theorem Map_string_option (n : String) (pre post : List Field) (F : Field) (tn : String)
    (opts : tagOptions)
    (hF : F.kept = true)
    (hp : parseTag F.tag = .ok (tn, opts))
    (hst : tagOptions.Has opts "string" = true)
    (hoe : (tagOptions.Has opts "omitempty" && DeepEqualZero F.val) = false) :
    ((tagOptions.Has opts "omitnested" = true ∨ ∃ x, nested F.val = .ok x) →
      ∀ out, fieldStep (nested F.val) F out =
        .ok (match F.Stringer with
          | some s => GoMap.set out (effectiveKey tn F) (.str s)
          | none => out)) ∧
    (∀ m, Map (.struct n (pre ++ F :: post)) = .ok m →
      (∀ s, F.Stringer = some s →
        (∀ g ∈ post, g.kept = true → effectiveKey tn F ∉ writtenKeys g) →
        m.get? (effectiveKey tn F) = some (.str s)) ∧
      (F.Stringer = none →
        (∀ g ∈ pre ++ post, g.kept = true → effectiveKey tn F ∉ writtenKeys g) →
        m.get? (effectiveKey tn F) = none)) := by
  refine ⟨fun hn out => fieldStep_string _ F tn opts out hp hst hoe hn, fun m hm => ?_⟩
  rw [Map_split n pre post F hF] at hm
  cases hpre : fillLoop (pre.filter Field.kept) [] with
  | error e =>
    rw [hpre] at hm
    cases hm
  | ok out =>
    rw [hpre] at hm
    simp only at hm
    have hn : tagOptions.Has opts "omitnested" = true ∨ ∃ x, nested F.val = .ok x := by
      by_cases h2 : tagOptions.Has opts "omitnested" = true
      · exact Or.inl h2
      · cases hv : nested F.val with
        | ok x => exact Or.inr ⟨x, rfl⟩
        | error e =>
          rw [hv] at hm
          simp [fieldStep, hp, hoe, h2] at hm
    rw [fieldStep_string _ F tn opts out hp hst hoe hn] at hm
    simp only at hm
    constructor
    · intro s hs hpost
      rw [hs] at hm
      rw [fillLoop_frame _ _ m _ hm
        (fun g hg => hpost g (List.mem_filter.mp hg).1 (List.mem_filter.mp hg).2)]
      exact GoMap.get?_set_self _ _ _
    · intro hs hothers
      rw [hs] at hm
      rw [fillLoop_frame _ _ m _ hm
        (fun g hg => hothers g (List.mem_append_right _ (List.mem_filter.mp hg).1)
          (List.mem_filter.mp hg).2),
        fillLoop_frame _ _ out _ hpre
          (fun g hg => hothers g (List.mem_append_left _ (List.mem_filter.mp hg).1)
            (List.mem_filter.mp hg).2)]
      rfl

/-- The `string` option at a field `Inner`, with and without `String()`
method. -/
theorem Map_string_option_witness :
    fieldStep (nested (innerRecord 1 2)) (innerField ",string,flatten" (some "1/2")) [] =
      .ok [("Inner", .str "1/2")] ∧
    Map (.struct "S" ([field "Id" "" (int 7)] ++
      innerField ",string,omitnested" (some "1/2") :: [])) =
      .ok [("Id", int 7), ("Inner", .str "1/2")] ∧
    GoMap.get? [("Id", int 7), ("Inner", .str "1/2")] "Inner" = some (.str "1/2") ∧
    Map (.struct "S" ([field "Id" "" (int 7)] ++ innerField ",string" none :: [])) =
      .ok [("Id", int 7)] ∧
    GoMap.get? [("Id", int 7)] "Inner" = none :=
  ⟨(Map_string_option "S" [] [] (innerField ",string,flatten" (some "1/2")) ""
      ["string", "flatten"] rfl rfl rfl rfl).1 (Or.inr ⟨_, rfl⟩) [],
    rfl,
    ((Map_string_option "S" [field "Id" "" (int 7)] []
      (innerField ",string,omitnested" (some "1/2")) "" ["string", "omitnested"]
      rfl rfl rfl rfl).2 _ rfl).1 "1/2" rfl (fun g hg _ => by cases hg),
    rfl,
    ((Map_string_option "S" [field "Id" "" (int 7)] [] (innerField ",string" none) ""
      ["string"] rfl rfl rfl rfl).2 _ rfl).2 rfl
      (fun g hg _ => by
        simp only [List.append_nil, List.mem_singleton] at hg
        rw [hg]
        decide)⟩

/-- C6. The field `B` holds a record whose type has a `String()` method
returning `bad`, and whose own field, tagged `flatten`, holds a `time.Time`.
Tagged `string`, `B` is neither dropped nor stored: `FillMap` calls
`s.nested(val)` at line 273 before it looks at the `string` option at line 288,
`nested` panics in the assertion of line 297, and so does `Map`.  Tagged
`string` and `omitnested`, `nested` is not called and `Map` returns `B` with
the text `bad`: the option `omitnested` changes the outcome. -/
theorem string_option_nested_panics :
    Field.Stringer (badField ",string") = some "bad" ∧
    nested eventRecord = .error .interfaceConversion ∧
    Map (.struct "Holder" [badField ",string"]) = .error .interfaceConversion ∧
    Map (.struct "Holder" [badField ",string,omitnested"]) = .ok [("B", .str "bad")] :=
  ⟨rfl, rfl, rfl, rfl⟩

/-! ## The tag `"-"` -/

/-- C7. A field `F` whose raw tag is exactly `"-"` makes no entry, whatever its
value: `Map` returns what it returns for the record without `F`.  An exported
field `G` whose raw tag is not `"-"` but parses to the name `"-"` (such as
`"-,omitempty"`) is kept by `structFields`, and its turn, when it is neither
dropped by `omitempty` nor tagged `string` or `flatten`, assigns the key
`"-"`. -/
theorem Map_dash_tag (n : String) (pre post : List Field) (F G : Field) (opts : tagOptions)
    (hx : F.tag = "-")
    (hG : G.PkgPath = "") (hne : G.tag ≠ "-")
    (hp : parseTag G.tag = .ok ("-", opts)) :
    Map (.struct n (pre ++ F :: post)) = Map (.struct n (pre ++ post)) ∧
    G.kept = true ∧
    ((tagOptions.Has opts "omitempty" && DeepEqualZero G.val) = false →
      tagOptions.Has opts "string" = false → tagOptions.Has opts "flatten" = false →
      ∀ nv out, fieldStep nv G out =
        match (if tagOptions.Has opts "omitnested" = true then .ok G.val.Interface else nv) with
        | .error e => .error e
        | .ok x => .ok (GoMap.set out "-" x)) := by
  have hk : ¬ (F.kept = true) := by simp [Field.kept, hx]
  refine ⟨?_, by simp [Field.kept, hG, hne], ?_⟩
  · rw [Map_struct, Map_struct, List.filter_append, List.filter_append,
      List.filter_cons_of_neg hk]
  · intro hoe hst hfl nv out
    by_cases h2 : tagOptions.Has opts "omitnested" = true
    · simp [fieldStep, hp, hoe, hst, hfl, h2]
    · cases nv <;> simp [fieldStep, hp, hoe, hst, hfl, h2]

/-- C7 at a field tagged `"-"` and at a field tagged `"-,omitempty"`. -/
theorem Map_dash_tag_witness :
    Map (.struct "D" ([field "Id" "" (int 7)] ++ field "Secret" "-" (int 9) :: [])) =
      Map (.struct "D" ([field "Id" "" (int 7)] ++ [])) ∧
    Map (.struct "D" ([field "Id" "" (int 7)] ++ field "Secret" "-" (int 9) :: [])) =
      .ok [("Id", int 7)] ∧
    fieldStep (nested (int 5)) (field "N" "-,omitempty" (int 5)) [("Id", int 7)] =
      .ok [("Id", int 7), ("-", int 5)] ∧
    Map (.struct "D" [field "N" "-,omitempty" (int 5)]) = .ok [("-", int 5)] :=
  have h := Map_dash_tag "D" [field "Id" "" (int 7)] [] (field "Secret" "-" (int 9))
    (field "N" "-,omitempty" (int 5)) ["omitempty"] rfl rfl (by decide) rfl
  ⟨h.1, rfl, h.2.2 rfl rfl rfl _ _, rfl⟩

/-! ## Tag parsing -/

theorem splitComma_spec (cs : List Char) :
    ∃ seg segs, splitComma cs = seg :: segs ∧
      seg = cs.takeWhile (fun c => c != ',') ∧
      segs.length = cs.count ',' ∧
      (∀ s ∈ seg :: segs, ',' ∉ s) ∧
      seg ++ segs.flatMap (fun s => ',' :: s) = cs := by
  induction cs with
  | nil => exact ⟨[], [], rfl, rfl, rfl, by simp, rfl⟩
  | cons c cs ih =>
    obtain ⟨seg, segs, hsplit, htake, hlen, hno, hjoin⟩ := ih
    by_cases hc : c = ','
    · subst hc
      refine ⟨[], seg :: segs, by simp [splitComma, hsplit], by simp, by simp [hlen], ?_, ?_⟩
      · intro s hs
        rcases List.mem_cons.mp hs with h | h
        · simp [h]
        · exact hno s h
      · simpa using hjoin
    · refine ⟨c :: seg, segs, by simp [splitComma, hc, hsplit], ?_, ?_, ?_, ?_⟩
      · have hc3 : (c != ',') = true := by simpa using hc
        simp [List.takeWhile, hc3, htake]
      · have hc2 : ¬ (c == ',') = true := by simpa using hc
        simp [List.count_cons, hc2, hlen]
      · intro s hs
        rcases List.mem_cons.mp hs with h | h
        · subst h
          have h1 := hno seg (List.mem_cons_self _ _)
          intro hmem
          rcases List.mem_cons.mp hmem with h2 | h2
          · exact hc h2.symm
          · exact h1 h2
        · exact hno s (List.mem_cons_of_mem _ h)
      · simpa using hjoin

theorem intercalate_go_data (sep acc : String) (l : List String) :
    (String.intercalate.go acc sep l).data =
      acc.data ++ l.flatMap (fun a => sep.data ++ a.data) := by
  induction l generalizing acc with
  | nil => simp [String.intercalate.go]
  | cons a rest ih => simp [String.intercalate.go, ih, String.data_append]

theorem flatMap_mk_data (segs : List (List Char)) :
    (segs.map String.mk).flatMap (fun a => ",".data ++ a.data) =
      segs.flatMap (fun s => ',' :: s) := by
  induction segs with
  | nil => rfl
  | cons t rest ih =>
    simp only [List.map_cons, List.flatMap_cons, ih]
    rfl

/-- C8. The function `parseTag` returns on every string `raw`, never panicking,
and what it returns is a name and a list of options such that: the name is
`raw` up to its first comma (all of it without comma), there are as many
options as commas in `raw`, no comma is in the name or in an option, and the
name and the options joined by `","` are `raw`. -/
theorem parseTag_spec (raw : String) :
    ∃ name opts, parseTag raw = .ok (name, opts) ∧
      name.data = raw.data.takeWhile (fun c => c != ',') ∧
      opts.length = raw.data.count ',' ∧
      (∀ s ∈ name :: opts, ',' ∉ s.data) ∧
      ",".intercalate (name :: opts) = raw := by
  obtain ⟨seg, segs, hsplit, htake, hlen, hno, hjoin⟩ := splitComma_spec raw.data
  refine ⟨String.mk seg, segs.map String.mk, by simp [parseTag, hsplit], htake,
    by simpa using hlen, ?_, ?_⟩
  · intro s hs
    rcases List.mem_cons.mp hs with h | h
    · subst h
      exact hno seg (List.mem_cons_self _ _)
    · obtain ⟨t, ht, rfl⟩ := List.mem_map.mp h
      exact hno t (List.mem_cons_of_mem _ ht)
  · apply String.ext
    rw [String.intercalate, intercalate_go_data]
    rw [flatMap_mk_data]
    exact hjoin

/-! ## Records inside records -/

/-- A record without exported field flattens to the empty mapping. -/
theorem Map_no_exported (R v : Val) (hv : strctVal R = .ok v)
    (hx : exportedFields v.Fields = []) : Map R = .ok [] := by
  have hnil : v.Fields.filter Field.kept = [] := by
    rw [List.filter_eq_nil_iff]
    intro f hf hk
    have h1 : f ∈ exportedFields v.Fields := by
      apply List.mem_filter.mpr
      refine ⟨hf, ?_⟩
      simp only [Field.kept, Bool.and_eq_true] at hk
      exact hk.1
    rw [hx] at h1
    cases h1
  rw [Map_of_strctVal R v hv, hnil]
  rfl

/-- C9. Let `val` be a slot whose value, taken out of its interface and of one
pointer, is a record.  Then `nested(val)` is `Map` of the value with an empty
mapping replaced by the raw value; it never returns an empty mapping; and for a
record without exported field it returns the raw value, which an untagged
field of a parent record then stores under the field's name. -/
theorem nested_record_never_empty (val : Val)
    (h : (derefOnce (ValueOf val.Interface)).Kind = .Struct) :
    (nested val =
      match Map val.Interface with
      | .error e => .error e
      | .ok m => .ok (if m.length = 0 then val.Interface else .mapSI m)) ∧
    (∀ x, nested val = .ok x → x ≠ .mapSI []) ∧
    (∀ v, strctVal val.Interface = .ok v → exportedFields v.Fields = [] →
      nested val = .ok val.Interface ∧
      ∀ F out, F.val = val → F.tag = "" →
        fieldStep (nested F.val) F out = .ok (GoMap.set out F.Name val.Interface)) := by
  have heq := nested_of_struct val h
  refine ⟨heq, ?_, ?_⟩
  · intro x hx hempty
    rw [heq] at hx
    cases hM : Map val.Interface with
    | error e =>
      rw [hM] at hx
      cases hx
    | ok m =>
      rw [hM] at hx
      simp only [Except.ok.injEq] at hx
      by_cases hl : m.length = 0
      · rw [if_pos hl, hempty] at hx
        rw [hx] at h
        simp [derefOnce, ValueOf, Val.Kind] at h
      · rw [if_neg hl, hempty] at hx
        cases hx
        exact hl rfl
  · intro v hv hx
    have hraw : nested val = .ok val.Interface := by
      rw [heq, Map_no_exported _ v hv hx]
      rfl
    refine ⟨hraw, fun F out hF ht => ?_⟩
    rw [fieldStep_untagged _ F out ht, hF, hraw]

/-- C9 at a pointer to `time.Time`, which stays raw, and at a record inside an
interface, which is flattened. -/
theorem nested_record_never_empty_witness :
    nested (.ptr timeValue) = .ok (.ptr timeValue) ∧
    fieldStep (nested (.ptr timeValue)) (field "When" "" (.ptr timeValue)) [] =
      .ok [("When", .ptr timeValue)] ∧
    nested (.iface (innerRecord 1 2)) = .ok (.mapSI [("X", int 1), ("Y", int 2)]) :=
  have h := nested_record_never_empty (.ptr timeValue) rfl
  ⟨(h.2.2 timeValue rfl rfl).1,
    (h.2.2 timeValue rfl rfl).2 (field "When" "" (.ptr timeValue)) [] rfl rfl,
    (nested_record_never_empty (.iface (innerRecord 1 2)) rfl).1⟩

/-! ## Pointers -/

theorem derefAll_ptrWrap (k : Nat) (n : String) (fs : List Field) :
    derefAll (ptrWrap k (.struct n fs)) = .struct n fs := by
  induction k with
  | zero => rfl
  | succ k ih => simpa [ptrWrap, derefAll] using ih

/-- A record with an exported untagged field does not flatten to the empty
mapping. -/
theorem Map_nonempty (n : String) (fs : List Field) (F : Field) (hF : F ∈ fs)
    (hx : F.PkgPath = "") (ht : F.tag = "") (m : GoMap)
    (hm : Map (.struct n fs) = .ok m) : m.length ≠ 0 := by
  have hk : F.kept = true := by simp [Field.kept, hx, ht]
  obtain ⟨l1, l2, hsplit⟩ := List.append_of_mem (List.mem_filter.mpr ⟨hF, hk⟩)
  rw [Map_struct, hsplit, fillLoop_append] at hm
  cases hpre : fillLoop l1 [] with
  | error e =>
    rw [hpre] at hm
    cases hm
  | ok out =>
    rw [hpre] at hm
    simp only [fillLoop, fieldStep_untagged _ F out ht] at hm
    cases hv : nested F.val with
    | error e =>
      rw [hv] at hm
      cases hm
    | ok fv =>
      rw [hv] at hm
      have hkey : F.Name ∈ GoMap.keys m :=
        fillLoop_keys_mono _ _ m _ hm ((GoMap.keys_set _ _ _ _).mpr (Or.inl rfl))
      intro hl
      rw [List.length_eq_zero] at hl
      rw [hl] at hkey
      cases hkey

/-- C10, as stated, fails at two pointer levels: `nested` flattens the record
`{1, 2}` to a mapping, and hands a pointer to a pointer to it back raw, so the
parent's output holds the raw pointer under the field's key. -/
theorem double_pointer_counterexample :
    Map (innerRecord 1 2) = .ok [("X", int 1), ("Y", int 2)] ∧
    nested (innerRecord 1 2) = .ok (.mapSI [("X", int 1), ("Y", int 2)]) ∧
    nested (ptrWrap 2 (innerRecord 1 2)) = .ok (.ptr (.ptr (innerRecord 1 2))) ∧
    Map (.struct "Holder" [field "P" "" (innerRecord 1 2)]) =
      .ok [("P", .mapSI [("X", int 1), ("Y", int 2)])] ∧
    Map (.struct "Holder" [field "P" "" (ptrWrap 2 (innerRecord 1 2))]) =
      .ok [("P", .ptr (.ptr (innerRecord 1 2)))] :=
  ⟨rfl, rfl, rfl, rfl, rfl⟩

/-- C10, amended. Let `R` be a record with at least one exported untagged
field.  `Map` itself sees through every number of pointers:
`Map` of `R` behind `k` non-nil pointers is `Map(R)`.  `nested` sees through at
most one: for `k ≤ 1` it flattens `R` behind `k` pointers to the mapping
`Map(R)`, and an untagged field holding it has the same turn as one holding
`R`; for `k ≥ 2` it returns the pointer raw. -/
theorem pointer_transparency (n : String) (fs : List Field) (F : Field) (hF : F ∈ fs)
    (hx : F.PkgPath = "") (ht : F.tag = "") :
    (∀ k, Map (ptrWrap k (.struct n fs)) = Map (.struct n fs)) ∧
    (∀ k, k ≤ 1 →
      nested (ptrWrap k (.struct n fs)) =
        match Map (.struct n fs) with
        | .error e => .error e
        | .ok m => .ok (.mapSI m)) ∧
    (∀ k, k ≤ 1 → ∀ name s out,
      fieldStep (nested (ptrWrap k (.struct n fs)))
          (.mk name "" "" (ptrWrap k (.struct n fs)) s) out =
        fieldStep (nested (.struct n fs)) (.mk name "" "" (.struct n fs) s) out) ∧
    (∀ k, 2 ≤ k → nested (ptrWrap k (.struct n fs)) = .ok (ptrWrap k (.struct n fs))) := by
  have hmap : ∀ k, Map (ptrWrap k (.struct n fs)) = Map (.struct n fs) := by
    intro k
    have hs : strctVal (ptrWrap k (.struct n fs)) = .ok (.struct n fs) := by
      simp [strctVal, ValueOf, derefAll_ptrWrap, Val.Kind]
    rw [Map_of_strctVal _ _ hs, Map_struct]
    rfl
  have hnested : ∀ k, k ≤ 1 →
      nested (ptrWrap k (.struct n fs)) =
        match Map (.struct n fs) with
        | .error e => .error e
        | .ok m => .ok (.mapSI m) := by
    intro k hk
    have hkind : (derefOnce (ValueOf (ptrWrap k (.struct n fs)).Interface)).Kind = .Struct := by
      interval_cases k <;> rfl
    have hi : (ptrWrap k (.struct n fs)).Interface = ptrWrap k (.struct n fs) := by
      interval_cases k <;> rfl
    rw [nested_of_struct _ hkind, hi, hmap k]
    cases hM : Map (.struct n fs) with
    | error e => rfl
    | ok m => simp [Map_nonempty n fs F hF hx ht m hM]
  refine ⟨hmap, hnested, ?_, ?_⟩
  · intro k hk name s out
    have h0 : nested (.struct n fs) = _ := hnested 0 (Nat.zero_le 1)
    rw [fieldStep_untagged _ (Field.mk name "" "" (ptrWrap k (.struct n fs)) s) out rfl,
      fieldStep_untagged _ (Field.mk name "" "" (.struct n fs) s) out rfl]
    rw [hnested k hk, h0]
    rfl
  · intro k hk
    obtain ⟨j, rfl⟩ : ∃ j, k = j + 2 := ⟨k - 2, by omega⟩
    rfl

/-- C10, amended, at `{1, 2}` behind three pointers and behind one. -/
theorem pointer_transparency_witness :
    Map (ptrWrap 3 (innerRecord 1 2)) = Map (innerRecord 1 2) ∧
    nested (ptrWrap 1 (innerRecord 1 2)) = .ok (.mapSI [("X", int 1), ("Y", int 2)]) ∧
    nested (ptrWrap 3 (innerRecord 1 2)) = .ok (ptrWrap 3 (innerRecord 1 2)) :=
  have h := pointer_transparency "Inner" [field "X" "" (int 1), field "Y" "" (int 2)]
    (field "X" "" (int 1)) (List.mem_cons_self _ _) rfl rfl
  ⟨h.1 3, h.2.1 1 (Nat.le_refl 1), h.2.2.2 3 (by decide)⟩

/-! ## Key aggregation -/

theorem Contains_iff (s : List String) (str : String) :
    Contains s str = true ↔ str ∈ s := by
  simp [Contains]

theorem appendNew_nil (acc : List String) : appendNew acc [] = acc := rfl

theorem appendNew_cons (acc : List String) (k : String) (ks : List String) :
    appendNew acc (k :: ks) = appendNew (if k ∈ acc then acc else acc ++ [k]) ks := by
  by_cases h : k ∈ acc
  · have hc : Contains acc k = true := (Contains_iff _ _).mpr h
    simp only [appendNew, List.foldl_cons, hc, h, if_true]
    rfl
  · have hc : Contains acc k = false := by
      rw [← Bool.not_eq_true, Contains_iff]
      exact h
    simp only [appendNew, List.foldl_cons, hc, h, if_false]
    rfl

theorem mem_appendNew (acc ks : List String) (k : String) :
    k ∈ appendNew acc ks ↔ k ∈ acc ∨ k ∈ ks := by
  induction ks generalizing acc with
  | nil => simp [appendNew_nil]
  | cons k1 rest ih =>
    rw [appendNew_cons, ih]
    by_cases h : k1 ∈ acc
    · simp only [h, if_true, List.mem_cons]
      constructor
      · rintro (h1 | h1)
        · exact Or.inl h1
        · exact Or.inr (Or.inr h1)
      · rintro (h1 | h1 | h1)
        · exact Or.inl h1
        · exact Or.inl (h1 ▸ h)
        · exact Or.inr h1
    · simp only [h, if_false, List.mem_append, List.mem_singleton, List.mem_cons]
      tauto

theorem nodup_appendNew (acc ks : List String) (h : acc.Nodup) :
    (appendNew acc ks).Nodup := by
  induction ks generalizing acc with
  | nil => simpa [appendNew_nil] using h
  | cons k1 rest ih =>
    rw [appendNew_cons]
    apply ih
    by_cases h1 : k1 ∈ acc
    · simpa [h1] using h
    · simp only [h1, if_false]
      exact List.Nodup.append h (List.nodup_singleton k1) (by simpa using h1)

theorem AllKeys_append (l1 l2 : List GoMap) :
    AllKeys (l1 ++ l2) =
      l2.foldl (fun allKeys objsMap => appendNew allKeys objsMap.keys) (AllKeys l1) := by
  simp [AllKeys, List.foldl_append]

theorem AllKeys_snoc (l : List GoMap) (m : GoMap) :
    AllKeys (l ++ [m]) = appendNew (AllKeys l) m.keys := by
  simp [AllKeys_append]

theorem mem_AllKeys (ms : List GoMap) (k : String) :
    k ∈ AllKeys ms ↔ ∃ m ∈ ms, k ∈ GoMap.keys m := by
  induction ms using List.reverseRecOn with
  | nil => simp [AllKeys]
  | append_singleton l m ih =>
    rw [AllKeys_snoc, mem_appendNew, ih]
    simp only [List.mem_append, List.mem_singleton]
    constructor
    · rintro (⟨x, hx, hk⟩ | hk)
      · exact ⟨x, Or.inl hx, hk⟩
      · exact ⟨m, Or.inr rfl, hk⟩
    · rintro ⟨x, hx | hx, hk⟩
      · exact Or.inl ⟨x, hx, hk⟩
      · exact Or.inr (hx ▸ hk)

theorem nodup_AllKeys (ms : List GoMap) : (AllKeys ms).Nodup := by
  induction ms using List.reverseRecOn with
  | nil => simp [AllKeys]
  | append_singleton l m ih =>
    rw [AllKeys_snoc]
    exact nodup_appendNew _ _ ih

/-- C11. For every sequence of mappings `AllKeys` returns (it is total: the
assertion `oKey.Interface().(string)` is on a key of a `map[string]`) a list
without duplicate whose elements are exactly the keys of the mappings: every
key of every mapping occurs, once, and nothing else does.  For the empty
sequence the result is empty. -/
theorem AllKeys_spec (ms : List GoMap) :
    (AllKeys ms).Nodup ∧
    (∀ k, k ∈ AllKeys ms ↔ ∃ m ∈ ms, k ∈ GoMap.keys m) ∧
    (∀ m ∈ ms, ∀ k ∈ GoMap.keys m, (AllKeys ms).count k = 1) ∧
    AllKeys [] = [] := by
  refine ⟨nodup_AllKeys ms, mem_AllKeys ms, ?_, rfl⟩
  intro m hm k hk
  exact List.count_eq_one_of_mem (nodup_AllKeys ms) ((mem_AllKeys ms k).mpr ⟨m, hm, hk⟩)

/-- The inner loop appends, in their order, the keys that are new. -/
theorem appendNew_eq_filter (acc ks : List String) (h : ks.Nodup) :
    appendNew acc ks = acc ++ ks.filter (fun k => !Contains acc k) := by
  induction ks generalizing acc with
  | nil => simp [appendNew_nil]
  | cons k1 rest ih =>
    rw [List.nodup_cons] at h
    rw [appendNew_cons, ih _ h.2]
    by_cases h1 : k1 ∈ acc
    · have hc : Contains acc k1 = true := (Contains_iff _ _).mpr h1
      simp [h1, hc]
    · have hc : Contains acc k1 = false := by
        rw [← Bool.not_eq_true, Contains_iff]
        exact h1
      simp only [h1, if_false, List.filter_cons, hc, Bool.not_false, if_true,
        List.append_assoc, List.singleton_append]
      congr 2
      apply List.filter_congr
      intro k hk
      have hne : k ≠ k1 := fun e => h.1 (e ▸ hk)
      by_cases h2 : k ∈ acc
      · have c1 : Contains (acc ++ [k1]) k = true :=
          (Contains_iff _ _).mpr (List.mem_append_left _ h2)
        have c2 : Contains acc k = true := (Contains_iff _ _).mpr h2
        rw [c1, c2]
      · have c1 : Contains (acc ++ [k1]) k = false := by
          rw [← Bool.not_eq_true, Contains_iff]
          simp [h2, hne]
        have c2 : Contains acc k = false := by
          rw [← Bool.not_eq_true, Contains_iff]
          exact h2
        rw [c1, c2]

/-- The inner loop only appends, and only keys that were not there. -/
theorem appendNew_extends (acc ks : List String) :
    ∃ t, appendNew acc ks = acc ++ t ∧ ∀ k ∈ t, k ∉ acc ∧ k ∈ ks := by
  induction ks generalizing acc with
  | nil => exact ⟨[], by simp [appendNew_nil], by simp⟩
  | cons k1 rest ih =>
    rw [appendNew_cons]
    by_cases h1 : k1 ∈ acc
    · obtain ⟨t, ht, hk⟩ := ih acc
      refine ⟨t, by simpa [h1] using ht, fun k hkt => ?_⟩
      exact ⟨(hk k hkt).1, List.mem_cons_of_mem _ (hk k hkt).2⟩
    · obtain ⟨t, ht, hk⟩ := ih (acc ++ [k1])
      refine ⟨k1 :: t, by simpa [h1] using ht, fun k hkt => ?_⟩
      rcases List.mem_cons.mp hkt with e | hmem
      · subst e
        exact ⟨h1, List.mem_cons_self _ _⟩
      · exact ⟨fun hacc => (hk k hmem).1 (List.mem_append_left _ hacc),
          List.mem_cons_of_mem _ (hk k hmem).2⟩

/-- Later mappings only append to the keys of the earlier ones. -/
theorem AllKeys_extends (l1 l2 : List GoMap) :
    ∃ t, AllKeys (l1 ++ l2) = AllKeys l1 ++ t ∧ ∀ k ∈ t, k ∉ AllKeys l1 := by
  induction l2 using List.reverseRecOn with
  | nil => exact ⟨[], by simp, by simp⟩
  | append_singleton l m ih =>
    obtain ⟨t, ht, hk⟩ := ih
    obtain ⟨t2, ht2, hk2⟩ := appendNew_extends (AllKeys (l1 ++ l)) (GoMap.keys m)
    refine ⟨t ++ t2, ?_, fun k hkt => ?_⟩
    · rw [← List.append_assoc, AllKeys_snoc, ht2, ht, List.append_assoc]
    · rcases List.mem_append.mp hkt with h | h
      · exact hk k h
      · intro hmem
        apply (hk2 k h).1
        rw [ht]
        exact List.mem_append_left _ hmem

theorem keys_mem_of_forall₂ (ms1 ms2 : List GoMap)
    (h : List.Forall₂ (fun x y => (GoMap.keys x).Perm (GoMap.keys y)) ms1 ms2) (k : String) :
    (∃ x ∈ ms1, k ∈ GoMap.keys x) → ∃ y ∈ ms2, k ∈ GoMap.keys y := by
  induction h with
  | nil => simp
  | cons hxy _ ih =>
    rintro ⟨x, hx, hk⟩
    rcases List.mem_cons.mp hx with e | hmem
    · subst e
      exact ⟨_, List.mem_cons_self _ _, hxy.mem_iff.mp hk⟩
    · obtain ⟨y, hy, hky⟩ := ih ⟨x, hmem, hk⟩
      exact ⟨y, List.mem_cons_of_mem _ hy, hky⟩

/-- C12, as stated, fails in its last part: the runtime chooses the order of
`MapKeys` anew at each call, and on the mapping `{"a": 1, "b": 2}` a call that
gets `a` first returns `[a, b]` while a call that gets `b` first returns
`[b, a]`. -/
theorem AllKeys_order_counterexample :
    GoMap.get? abMap "a" = GoMap.get? baMap "a" ∧
    GoMap.get? abMap "b" = GoMap.get? baMap "b" ∧
    (GoMap.keys abMap).Perm (GoMap.keys baMap) ∧
    AllKeys [abMap] = ["a", "b"] ∧
    AllKeys [baMap] = ["b", "a"] ∧
    AllKeys [abMap] ≠ AllKeys [baMap] :=
  ⟨rfl, rfl, List.Perm.swap _ _ _, rfl, rfl, by decide⟩

/-- C12, amended. `AllKeys` keeps the first-seen order, relative to the order
in which each call of `MapKeys` returns the (distinct) keys of a mapping `m`:
the result starts with the keys of the mappings before `m`, goes on with the
keys of `m` that are new, in the order of `m`, and ends with keys that are in
none of these; so a key seen in `m` or before precedes every key first seen
after `m`.  For a single mapping the result is its keys in the order of the
call.  Two calls on the same mappings return the same keys, as permutations of
each other (in the same order when `MapKeys` returns the same orders). -/
theorem AllKeys_first_seen (pre post : List GoMap) (m : GoMap)
    (hm : (GoMap.keys m).Nodup) :
    (∃ tail, AllKeys (pre ++ m :: post) =
        AllKeys pre ++ (GoMap.keys m).filter (fun k => !Contains (AllKeys pre) k) ++ tail ∧
      ∀ k ∈ tail, k ∉ AllKeys pre ∧ k ∉ GoMap.keys m) ∧
    (∀ a b, (∃ x ∈ pre ++ [m], a ∈ GoMap.keys x) → (∀ x ∈ pre ++ [m], b ∉ GoMap.keys x) →
      (∃ x ∈ post, b ∈ GoMap.keys x) →
      ∃ l1 l2 l3, AllKeys (pre ++ m :: post) = l1 ++ a :: (l2 ++ b :: l3)) ∧
    AllKeys [m] = GoMap.keys m ∧
    (∀ ms1 ms2, List.Forall₂ (fun x y => (GoMap.keys x).Perm (GoMap.keys y)) ms1 ms2 →
      (AllKeys ms1).Perm (AllKeys ms2)) := by
  have hsplit : pre ++ m :: post = (pre ++ [m]) ++ post := by simp
  obtain ⟨t, ht, hk⟩ := AllKeys_extends (pre ++ [m]) post
  refine ⟨⟨t, ?_, fun k hkt => ?_⟩, ?_, ?_, ?_⟩
  · rw [hsplit, ht, AllKeys_snoc, appendNew_eq_filter _ _ hm]
  · have h1 := hk k hkt
    rw [mem_AllKeys] at h1
    constructor
    · intro hp
      obtain ⟨x, hx, hkx⟩ := (mem_AllKeys pre k).mp hp
      exact h1 ⟨x, List.mem_append_left _ hx, hkx⟩
    · intro hkm
      exact h1 ⟨m, List.mem_append_right _ (List.mem_singleton_self m), hkm⟩
  · intro a b ha hb hpost
    have ha1 : a ∈ AllKeys (pre ++ [m]) := (mem_AllKeys _ a).mpr ha
    have hb1 : b ∉ AllKeys (pre ++ [m]) := by
      intro hmem
      obtain ⟨x, hx, hbx⟩ := (mem_AllKeys _ b).mp hmem
      exact hb x hx hbx
    have hb2 : b ∈ AllKeys (pre ++ m :: post) := by
      obtain ⟨x, hx, hbx⟩ := hpost
      exact (mem_AllKeys _ b).mpr ⟨x, List.mem_append_right _ (List.mem_cons_of_mem _ hx), hbx⟩
    rw [hsplit, ht] at hb2 ⊢
    have hbt : b ∈ t := by
      rcases List.mem_append.mp hb2 with h | h
      · exact absurd h hb1
      · exact h
    obtain ⟨l1, l2, hl⟩ := List.append_of_mem ha1
    obtain ⟨t1, t2, htt⟩ := List.append_of_mem hbt
    exact ⟨l1, l2 ++ t1, t2, by rw [hl, htt]; simp⟩
  · have h1 := appendNew_eq_filter [] (GoMap.keys m) hm
    simpa [AllKeys, Contains] using h1
  · intro ms1 ms2 h12
    rw [List.perm_ext_iff_of_nodup (nodup_AllKeys ms1) (nodup_AllKeys ms2)]
    intro k
    rw [mem_AllKeys, mem_AllKeys]
    constructor
    · exact keys_mem_of_forall₂ ms1 ms2 h12 k
    · apply keys_mem_of_forall₂ ms2 ms1 _ k
      exact List.Forall₂.flip (List.Forall₂.imp (fun _ _ hp => hp.symm) h12)

/-- C12, amended, at `{a, b}`, `{b, c}`, `{d}`: `c` follows `a` and `b`, and `d`
comes last. -/
theorem AllKeys_first_seen_witness :
    AllKeys ([abMap] ++ [("b", int 2), ("c", int 3)] :: [[("d", int 4)]]) =
      ["a", "b", "c", "d"] ∧
    ∃ l1 l2 l3, AllKeys ([abMap] ++ [("b", int 2), ("c", int 3)] :: [[("d", int 4)]]) =
      l1 ++ "c" :: (l2 ++ "d" :: l3) :=
  ⟨rfl,
    (AllKeys_first_seen [abMap] [[("d", int 4)]] [("b", int 2), ("c", int 3)]
      (by decide)).2.1 "c" "d"
      ⟨[("b", int 2), ("c", int 3)], by simp, by decide⟩
      (fun x hx => by
        simp only [List.singleton_append, List.mem_cons, List.mem_singleton,
          List.not_mem_nil, or_false] at hx
        rcases hx with rfl | rfl <;> decide)
      ⟨[("d", int 4)], by simp, by decide⟩⟩

/-! ## The table -/

theorem asInterfaceMapLoop_of_forall₂ (objs : List Val) (maps : List GoMap)
    (h : List.Forall₂ (fun x m => Map x = .ok m) objs maps) :
    asInterfaceMapLoop objs = .ok maps := by
  induction h with
  | nil => rfl
  | cons hx _ ih => simp [asInterfaceMapLoop, hx, ih]

theorem index_of_not_mem (e : GoMap) (k : String) (h : k ∉ GoMap.keys e) :
    GoMap.index e k = .nilIface := by
  simp [GoMap.index, (GoMap.get?_eq_none_iff e k).mpr h]

theorem keys_inOrder (m : GoMap) (ks : List String) :
    GoMap.keys (GoMap.inOrder m ks) = ks := by
  induction ks with
  | nil => rfl
  | cons k rest ih =>
    simp only [GoMap.inOrder, GoMap.keys, List.map_cons] at ih ⊢
    rw [ih]

theorem get?_inOrder_map (m : GoMap) (ks : List String) (k : String) :
    GoMap.get? (GoMap.inOrder m ks) k =
      if k ∈ ks then some (GoMap.index m k) else none := by
  induction ks with
  | nil => simp [GoMap.inOrder, GoMap.get?]
  | cons k1 rest ih =>
    simp only [GoMap.inOrder, List.map_cons, GoMap.get?] at ih ⊢
    by_cases h : k1 = k
    · subst h
      simp
    · have h2 : ¬ k = k1 := fun e => h e.symm
      simp [h, h2, ih]

/-- A mapping put in the order of a call of `MapKeys` is the same mapping: it
has the same entry, or none, at every key. -/
theorem get?_inOrder (m : GoMap) (ks : List String) (hp : ks.Perm (GoMap.keys m))
    (k : String) : GoMap.get? (GoMap.inOrder m ks) k = GoMap.get? m k := by
  rw [get?_inOrder_map]
  by_cases h : k ∈ ks
  · have hk : k ∈ GoMap.keys m := hp.mem_iff.mp h
    have hne : GoMap.get? m k ≠ none := by
      rw [Ne, GoMap.get?_eq_none_iff]
      exact fun hn => hn hk
    rw [if_pos h]
    cases hv : GoMap.get? m k with
    | none => exact absurd hv hne
    | some v => simp [GoMap.index, hv]
  · have hk : k ∉ GoMap.keys m := fun hn => h (hp.mem_iff.mpr hn)
    rw [if_neg h, (GoMap.get?_eq_none_iff m k).mpr hk]

theorem forall₂_inOrder (maps : List GoMap) (orders : List (List String))
    (h : List.Forall₂ (fun m ks => ks.Perm (GoMap.keys m)) maps orders) :
    List.Forall₂
      (fun m it => (GoMap.keys it).Perm (GoMap.keys m) ∧ ∀ k, GoMap.get? it k = GoMap.get? m k)
      maps (List.zipWith GoMap.inOrder maps orders) := by
  induction h with
  | nil => exact List.Forall₂.nil
  | @cons m ks _ _ hp _ ih =>
    refine List.Forall₂.cons ⟨?_, fun k => get?_inOrder m ks hp k⟩ ih
    rw [keys_inOrder]
    exact hp

/-- Two sequences of the same mappings, each iterated in any order, give
`AllKeys` the same keys. -/
theorem AllKeys_perm (ms1 ms2 : List GoMap)
    (h : List.Forall₂ (fun x y => (GoMap.keys x).Perm (GoMap.keys y)) ms1 ms2) :
    (AllKeys ms1).Perm (AllKeys ms2) := by
  rw [List.perm_ext_iff_of_nodup (nodup_AllKeys ms1) (nodup_AllKeys ms2)]
  intro k
  rw [mem_AllKeys, mem_AllKeys]
  constructor
  · exact keys_mem_of_forall₂ ms1 ms2 h k
  · apply keys_mem_of_forall₂ ms2 ms1 _ k
    exact List.Forall₂.flip (List.Forall₂.imp (fun _ _ hp => hp.symm) h)

theorem asInterfaceMapLoop_iff (objs : List Val) (maps : List GoMap) :
    asInterfaceMapLoop objs = .ok maps ↔
      List.Forall₂ (fun x m => Map x = .ok m) objs maps := by
  refine ⟨fun h => ?_, asInterfaceMapLoop_of_forall₂ objs maps⟩
  induction objs generalizing maps with
  | nil =>
    simp only [asInterfaceMapLoop] at h
    cases h
    exact List.Forall₂.nil
  | cons x rest ih =>
    simp only [asInterfaceMapLoop] at h
    cases hx : Map x with
    | error e =>
      rw [hx] at h
      cases h
    | ok m =>
      rw [hx] at h
      cases hr : asInterfaceMapLoop rest with
      | error e =>
        rw [hr] at h
        cases h
      | ok ms =>
        rw [hr] at h
        cases h
        exact List.Forall₂.cons hx (ih ms hr)

theorem asInterfaceMap_iff (objs : Option (List Val)) (maps : List GoMap) :
    asInterfaceMap objs = .ok maps ↔
      List.Forall₂ (fun x m => Map x = .ok m) (objs.getD []) maps := by
  cases objs with
  | none =>
    simp only [asInterfaceMap, Option.getD_none, List.forall₂_nil_left_iff]
    constructor
    · intro h
      cases h
      rfl
    · intro h
      rw [h]
  | some xs => exact asInterfaceMapLoop_iff xs maps

/-- C13. Let `orders` be the orders in which `MapKeys` returns the keys of the
flattened elements, whatever the runtime chooses.  `PrintDumpTable` returns
exactly when its argument is a slice each of whose `N` elements `Map` flattens,
to the mappings `maps` (it panics where `AsInterfaces` or `Map` does), and it
has then handed to the table one header and `N` rows in the order of the
elements.  The header is `Headers` when it is not nil and otherwise `AllKeys`
over the flattened elements as that call iterates them: each key of each
mapping once and nothing else, in first-seen order.  The row of an element has
one cell for each header, in the order of the header: the text form of the
element's mapping at that header, which is the text form of `nil` for a key
the mapping does not have. -/
theorem PrintDumpTable_rows (options : TableOptions) (sprint : Val → String)
    (orders : List (List String)) (slice : Val) :
    (∀ t, options.PrintDumpTable sprint orders slice = .ok t ↔
      ∃ objs maps, AsInterfaces slice = .ok objs ∧
        List.Forall₂ (fun x m => Map x = .ok m) (objs.getD []) maps ∧
        t.header = (match options.Headers with
          | none => AllKeys (List.zipWith GoMap.inOrder maps orders)
          | some h => h) ∧
        t.rows = maps.map (fun e => t.header.map (fun k => sprint (GoMap.index e k)))) ∧
    (∀ objs maps, AsInterfaces slice = .ok objs →
      List.Forall₂ (fun x m => Map x = .ok m) (objs.getD []) maps →
      List.Forall₂ (fun m ks => ks.Perm (GoMap.keys m)) maps orders →
      ∃ t, options.PrintDumpTable sprint orders slice = .ok t ∧
        t.header = (match options.Headers with
          | none => AllKeys (List.zipWith GoMap.inOrder maps orders)
          | some h => h) ∧
        t.rows.length = (objs.getD []).length ∧
        t.rows = maps.map (fun e => t.header.map (fun k => sprint (GoMap.index e k))) ∧
        (∀ row ∈ t.rows, row.length = t.header.length) ∧
        (∀ e ∈ maps, ∀ k, k ∉ GoMap.keys e →
          sprint (GoMap.index e k) = sprint .nilIface) ∧
        List.Forall₂
          (fun m it => (GoMap.keys it).Perm (GoMap.keys m) ∧
            ∀ k, GoMap.get? it k = GoMap.get? m k)
          maps (List.zipWith GoMap.inOrder maps orders) ∧
        (options.Headers = none →
          t.header.Nodup ∧ (∀ k, k ∈ t.header ↔ ∃ m ∈ maps, k ∈ GoMap.keys m) ∧
          t.header.Perm (AllKeys maps))) := by
  have hrun : ∀ objs maps, AsInterfaces slice = .ok objs →
      List.Forall₂ (fun x m => Map x = .ok m) (objs.getD []) maps →
      options.PrintDumpTable sprint orders slice =
        .ok { header := (match options.Headers with
                | none => AllKeys (List.zipWith GoMap.inOrder maps orders)
                | some h => h),
              rows := maps.map (fun e =>
                (match options.Headers with
                  | none => AllKeys (List.zipWith GoMap.inOrder maps orders)
                  | some h => h).map (fun k => sprint (GoMap.index e k))) } := by
    intro objs maps hs hmaps
    simp only [TableOptions.PrintDumpTable, hs, (asInterfaceMap_iff objs maps).mpr hmaps]
  constructor
  · intro t
    constructor
    · intro h
      cases hs : AsInterfaces slice with
      | error e =>
        simp only [TableOptions.PrintDumpTable, hs] at h
        cases h
      | ok objs =>
        cases hm : asInterfaceMap objs with
        | error e =>
          simp only [TableOptions.PrintDumpTable, hs, hm] at h
          cases h
        | ok maps =>
          have hmaps := (asInterfaceMap_iff objs maps).mp hm
          rw [hrun objs maps hs hmaps] at h
          cases h
          exact ⟨objs, maps, rfl, hmaps, rfl, rfl⟩
    · rintro ⟨objs, maps, hs, hmaps, hh, hr⟩
      rw [hrun objs maps hs hmaps]
      obtain ⟨header, rows⟩ := t
      simp only at hh hr
      subst hh
      subst hr
      rfl
  · intro objs maps hs hmaps horders
    have hsame := forall₂_inOrder maps orders horders
    have hperm : (AllKeys (List.zipWith GoMap.inOrder maps orders)).Perm (AllKeys maps) :=
      AllKeys_perm _ _ (List.Forall₂.flip (List.Forall₂.imp (fun _ _ hp => hp.1) hsame))
    refine ⟨_, hrun objs maps hs hmaps, rfl, ?_, rfl, ?_, ?_, hsame, ?_⟩
    · simp [hmaps.length_eq]
    · intro row hrow
      obtain ⟨e, -, rfl⟩ := List.mem_map.mp hrow
      simp
    · intro e _ k hk
      rw [index_of_not_mem e k hk]
    · intro hnone
      simp only [hnone]
      refine ⟨nodup_AllKeys _, fun k => ?_, hperm⟩
      rw [hperm.mem_iff, mem_AllKeys]

/-- C13 at two records with different fields, without `Headers`, on a run
where `MapKeys` returns `Y` before `X` for the first record: two rows under the
header `Y`, `X`, the second with the text of `nil` in `Y`. -/
theorem PrintDumpTable_rows_witness :
    ∃ t, TableOptions.PrintDumpTable { Headers := none } sprintSample [["Y", "X"], ["X"]]
        twoRecords = .ok t ∧
      t.header = ["Y", "X"] ∧ t.rows = [["2", "1"], ["<nil>", "2"]] :=
  have h := (PrintDumpTable_rows { Headers := none } sprintSample [["Y", "X"], ["X"]]
    twoRecords).2 (some [innerRecord 1 2, .struct "Single" [field "X" "" (int 2)]])
    [[("X", int 1), ("Y", int 2)], [("X", int 2)]] rfl
    (List.Forall₂.cons rfl (List.Forall₂.cons rfl List.Forall₂.nil))
    (List.Forall₂.cons (show ["Y", "X"].Perm ["X", "Y"] from List.Perm.swap _ _ _)
      (List.Forall₂.cons (List.Perm.refl _) List.Forall₂.nil))
  h.elim fun t ht => ⟨t, ht.1, ht.2.1, ht.2.2.2.1.trans (by rw [ht.2.1]; rfl)⟩

/-- C14. The function `AsInterfaces` panics exactly on an argument that is not
a slice (`nil`, an array and a pointer to a slice among them).  For the nil
slice it returns nil, for an empty non-nil slice an empty non-nil list, and for
a non-nil slice of length `n` a list of length `n` whose `i`-th element is the
`i`-th element of the slice, as `Index(i).Interface()` returns it. -/
theorem AsInterfaces_spec (slice : Val) :
    ((∃ e, AsInterfaces slice = .error e) ↔ (ValueOf slice).Kind ≠ .Slice) ∧
    (∀ e, AsInterfaces (.nilSlice e) = .ok none) ∧
    (∀ e, AsInterfaces (.slice e []) = .ok (some [])) ∧
    (∀ e xs, ∃ r, AsInterfaces (.slice e xs) = .ok (some r) ∧ r.length = xs.length ∧
      ∀ i : Nat, r[i]? = (xs[i]?).map Val.Interface) := by
  refine ⟨?_, fun e => rfl, fun e => rfl, fun e xs => ⟨xs.map Val.Interface, rfl, by simp, ?_⟩⟩
  · by_cases hk : (ValueOf slice).Kind = .Slice
    · constructor
      · rintro ⟨e, he⟩
        by_cases hn : (ValueOf slice).IsNil = true <;> simp [AsInterfaces, hk, hn] at he
      · intro h
        exact absurd hk h
    · constructor
      · intro _
        exact hk
      · intro _
        exact ⟨.nonSlice, by simp [AsInterfaces, hk]⟩
  · intro i
    simp [List.getElem?_map]

/-! ## The snapshot file -/

/-- C15. With `INSPECT_VARS` not set, `Vars` returns and leaves the file
system as it was, whatever `objs` is: no file or directory is made or
written. -/
theorem Vars_unset (encoded : Option (List Char)) (fs : FileSystem) :
    Vars none encoded fs = fs := rfl

/-- C16. With `INSPECT_VARS` set to `/tmp/vars.json`, the directory `/tmp`
there and nothing at the path: `Vars` makes a directory at the path itself
(line 26), `OpenFile` fails on it and no file is written.  With a regular file
already at the path, holding the text of an earlier call: the text of the next
call is written at offset 0, over the old text and not after it. -/
theorem Vars_makes_directory :
    tmpOnly varsPath = none ∧
    Vars (some varsPath) (some emptyPayload) tmpOnly varsPath = some .dir ∧
    Vars (some varsPath) (some emptyPayload)
      (Vars (some varsPath) (some emptyPayload) tmpOnly) varsPath = some .dir ∧
    Vars (some varsPath) (some emptyPayload) (withVarsFile emptyPayload) varsPath =
      some (.file emptyPayload) ∧
    Vars (some varsPath) (some "\"e30=\"\n".data) (withVarsFile "\"eyJhIjoxfQ==\"\n".data)
      varsPath = some (.file "\"e30=\"\noxfQ==\"\n".data) := by
  refine ⟨by decide, by decide, by decide, by decide, by decide⟩

/-! ## Key collisions -/

/-- A turn that returns on the empty mapping returns on every mapping, and
leaves at each key it writes the value it writes there. -/
theorem fieldStep_of_empty (nv : Except Panic Val) (f : Field) (W out : GoMap)
    (h : fieldStep nv f [] = .ok W) :
    ∃ out1, fieldStep nv f out = .ok out1 ∧
      ∀ k ∈ GoMap.keys W, out1.get? k = W.get? k := by
  rcases fieldStep_shape nv f with ⟨e, he⟩ | hs | ⟨k1, v, hs⟩ | ⟨m, hs⟩
  · rw [he] at h
    cases h
  · rw [hs] at h
    cases h
    exact ⟨out, hs out, fun k hk => by cases hk⟩
  · rw [hs] at h
    cases h
    refine ⟨_, hs out, fun k hk => ?_⟩
    have hk1 : k = k1 := by simpa [GoMap.set, GoMap.keys] using hk
    subst hk1
    rw [GoMap.get?_set_self, GoMap.get?_set_self]
  · rw [hs] at h
    cases h
    refine ⟨_, hs out, fun k hk => ?_⟩
    have hkm : k ∈ GoMap.keys m := by
      rcases (GoMap.keys_merge [] m k).mp hk with h1 | h1
      · cases h1
      · exact h1
    rw [GoMap.get?_merge_of_mem out m k hkm, GoMap.get?_merge_of_mem [] m k hkm]

/-- The loop returns when each of its turns returns on the empty mapping. -/
theorem fillLoop_returns (l : List Field) (out : GoMap)
    (h : ∀ g ∈ l, ∃ W, fieldStep (nested g.val) g [] = .ok W) :
    ∃ m, fillLoop l out = .ok m := by
  induction l generalizing out with
  | nil => exact ⟨out, rfl⟩
  | cons f rest ih =>
    obtain ⟨W, hW⟩ := h f (List.mem_cons_self _ _)
    obtain ⟨out1, h1, -⟩ := fieldStep_of_empty _ f W out hW
    obtain ⟨m, hm⟩ := ih out1 (fun g hg => h g (List.mem_cons_of_mem _ hg))
    exact ⟨m, by simp only [fillLoop, h1, hm]⟩

/-- C17. Let the fields `F1` and then `F2` of a record both write the key `k`,
by their names or by the merge of a `flatten`, each turn of the record
returning by itself, and let no field after `F2` write `k`.  Then `Map`
returns: the collision raises no error.  After the turn of `F1` the mapping
holds at `k` the value `F1` writes, and the mapping `Map` returns holds at `k`
the value `F2` writes. -/
theorem Map_later_field_wins (n : String) (pre mid post : List Field) (F1 F2 : Field)
    (k : String) (W1 W2 : GoMap)
    (hk1 : F1.kept = true) (hk2 : F2.kept = true)
    (h1 : fieldStep (nested F1.val) F1 [] = .ok W1)
    (h2 : fieldStep (nested F2.val) F2 [] = .ok W2)
    (hw1 : k ∈ GoMap.keys W1) (hw2 : k ∈ GoMap.keys W2)
    (hothers : ∀ g ∈ pre ++ mid ++ post, g.kept = true →
      ∃ W, fieldStep (nested g.val) g [] = .ok W)
    (hpost : ∀ g ∈ post, g.kept = true → k ∉ writtenKeys g) :
    ∃ o1 m, Map (.struct n (pre ++ [F1])) = .ok o1 ∧ o1.get? k = W1.get? k ∧
      Map (.struct n (pre ++ F1 :: (mid ++ F2 :: post))) = .ok m ∧
      m.get? k = W2.get? k := by
  have hret : ∀ l : List Field, (∀ g ∈ l, g ∈ pre ++ mid ++ post) → ∀ out,
      ∃ m, fillLoop (l.filter Field.kept) out = .ok m := by
    intro l hl out
    apply fillLoop_returns
    intro g hg
    exact hothers g (hl g (List.mem_filter.mp hg).1) (List.mem_filter.mp hg).2
  obtain ⟨o0, ho0⟩ := hret pre (fun g hg => by simp [hg]) []
  obtain ⟨o1, ho1, hv1⟩ := fieldStep_of_empty _ F1 W1 o0 h1
  obtain ⟨o2, ho2⟩ := hret mid (fun g hg => by simp [hg]) o1
  obtain ⟨o3, ho3, hv3⟩ := fieldStep_of_empty _ F2 W2 o2 h2
  obtain ⟨m, hm⟩ := hret post (fun g hg => by simp [hg]) o3
  refine ⟨o1, m, ?_, hv1 k hw1, ?_, ?_⟩
  · rw [Map_split n pre [] F1 hk1, ho0]
    simp only [ho1, List.filter_nil, fillLoop]
  · rw [Map_split n pre (mid ++ F2 :: post) F1 hk1, ho0]
    simp only [ho1, List.filter_append, List.filter_cons_of_pos hk2, fillLoop_append, ho2,
      fillLoop, ho3, hm]
  · rw [fillLoop_frame _ _ m k hm
      (fun g hg => hpost g (List.mem_filter.mp hg).1 (List.mem_filter.mp hg).2)]
    exact hv3 k hw2

/-- C17 at `collidingRecord`: the merge of `Inner` writes `X` as 1, the field
`B` renamed to `X` writes 9 after it, and `Map` returns with 9 at `X`. -/
theorem Map_later_field_wins_witness :
    ∃ o1 m, Map (.struct "Colliding" ([field "A" "k" (int 5)] ++
        [field "Inner" ",flatten" (innerRecord 1 2)])) = .ok o1 ∧
      o1.get? "X" = GoMap.get? [("X", int 1), ("Y", int 2)] "X" ∧
      Map collidingRecord = .ok m ∧
      m.get? "X" = GoMap.get? [("X", int 9)] "X" :=
  Map_later_field_wins "Colliding" [field "A" "k" (int 5)] [] []
    (field "Inner" ",flatten" (innerRecord 1 2)) (field "B" "X" (int 9)) "X"
    [("X", int 1), ("Y", int 2)] [("X", int 9)] rfl rfl rfl rfl (by decide) (by decide)
    (fun g hg _ => by
      simp only [List.append_nil, List.mem_singleton] at hg
      rw [hg]
      exact ⟨_, rfl⟩)
    (fun g hg _ => by cases hg)

/-! ## Maps and slices of records -/

/-- The loop over the entries of a map whose keys have distinct texts, none of
them in the mapping so far: it appends, in order, the text of each key with
`nested` of the element. -/
theorem nestedEntries_distinct (kt : GoType) (es : List Entry) (out : GoMap)
    (hnd : (es.map (fun en => keyString kt en.key)).Nodup)
    (hout : ∀ en ∈ es, keyString kt en.key ∉ GoMap.keys out) (m : GoMap) :
    nestedEntries kt es out = .ok m ↔
      ∃ ys, List.Forall₂
          (fun en kv => kv.1 = keyString kt en.key ∧ nested en.elem = .ok kv.2) es ys ∧
        m = out ++ ys := by
  induction es generalizing out with
  | nil =>
    simp only [nestedEntries, List.forall₂_nil_left_iff, exists_eq_left, List.append_nil]
    constructor
    · intro h
      cases h
      rfl
    · intro h
      rw [h]
  | cons en rest ih =>
    obtain ⟨k, x⟩ := en
    have hn : keyString kt k ∉ GoMap.keys out := hout _ (List.mem_cons_self _ _)
    rw [List.map_cons, List.nodup_cons] at hnd
    simp only [nestedEntries]
    cases hv : nested x with
    | error e =>
      constructor
      · intro h
        cases h
      · rintro ⟨ys, hys, -⟩
        cases hys with
        | cons h1 h2 =>
          simp only [Entry.elem] at h1
          rw [hv] at h1
          cases h1.2
    | ok y =>
      have hrest : ∀ en ∈ rest,
          keyString kt en.key ∉ GoMap.keys (GoMap.set out (keyString kt k) y) := by
        intro en hen hmem
        rcases (GoMap.keys_set _ _ _ _).mp hmem with h1 | h1
        · apply hnd.1
          simp only [Entry.key]
          rw [← h1]
          exact List.mem_map_of_mem (fun en => keyString kt en.key) hen
        · exact hout en (List.mem_cons_of_mem _ hen) h1
      simp only
      rw [ih _ hnd.2 hrest, GoMap.set_of_not_mem out _ _ hn]
      constructor
      · rintro ⟨ys, hys, rfl⟩
        exact ⟨(keyString kt k, y) :: ys, List.Forall₂.cons ⟨rfl, hv⟩ hys, by simp⟩
      · rintro ⟨ys, hys, rfl⟩
        cases hys with
        | @cons _ kv _ ys1 h1 h2 =>
          obtain ⟨k1, v1⟩ := kv
          obtain ⟨hk, hv1⟩ := h1
          simp only [Entry.key, Entry.elem] at hk hv1
          rw [hv] at hv1
          cases hv1
          subst hk
          exact ⟨ys1, h2, by simp⟩

/-- A map of records whose keys have distinct texts, as the keys of a map with
keys of string kind have, is flattened entry by entry. -/
theorem nested_map_distinct (kt e : GoType) (es : List Entry)
    (hd : descendsMap (mapElemOf e) = true)
    (hnd : (es.map (fun en => keyString kt en.key)).Nodup) (r : Val) :
    nested (.map kt e es) = .ok r ↔
      ∃ ys, r = .mapSI ys ∧ List.Forall₂
        (fun en kv => kv.1 = keyString kt en.key ∧ nested en.elem = .ok kv.2) es ys := by
  have h := nestedEntries_distinct kt es [] hnd (by simp [GoMap.keys])
  simp only [nested, hd, if_true]
  cases hr : nestedEntries kt es [] with
  | error err =>
    constructor
    · intro h1
      cases h1
    · rintro ⟨ys, rfl, hys⟩
      have := (h ys).mpr ⟨ys, hys, by simp⟩
      rw [hr] at this
      cases this
  | ok m =>
    obtain ⟨ys, hys, hm⟩ := (h m).mp hr
    simp only [List.nil_append] at hm
    subst hm
    constructor
    · intro h1
      cases h1
      exact ⟨m, rfl, hys⟩
    · rintro ⟨ys2, rfl, hys2⟩
      have := (h ys2).mpr ⟨ys2, hys2, by simp⟩
      rw [hr] at this
      cases this
      rfl

/-- C18. The map `map[int]Inner{1: {1, 2}, 2: {3, 4}}` has two entries, and
`nested` returns a mapping with the one key `<int Value>`, the text
`k.String()` gives for every key of kind `int` (line 346); the record of the
key 1 is lost.  On the map `map[string]Inner` with the same elements the keys
are kept. -/
theorem nested_int_keys_collapse :
    nested intKeyed =
      .ok (.mapSI [("<int Value>", .mapSI [("X", int 3), ("Y", int 4)])]) ∧
    nested stringKeyed =
      .ok (.mapSI [("a", .mapSI [("X", int 1), ("Y", int 2)]),
        ("b", .mapSI [("X", int 3), ("Y", int 4)])]) :=
  ⟨rfl, rfl⟩

/-- The test of lines 364-366 lets through the element types that are a record
or a pointer to a record. -/
theorem descendsSlice_iff (e : GoType) :
    descendsSlice e = true ↔
      e.Kind = .Struct ∨ ∃ e1, e = .ptr e1 ∧ e1.Kind = .Struct := by
  cases e with
  | struct name => simp [descendsSlice, GoType.Kind]
  | ptr e1 => simp [descendsSlice, GoType.Kind]
  | scalar k name => cases k <;> simp [descendsSlice, GoType.Kind, Scalar.Kind]
  | _ => simp [descendsSlice, GoType.Kind]

/-- The test of lines 329-343 lets through the element types that are a
record, a slice of records, or a pointer to either. -/
theorem descendsMap_iff (e : GoType) :
    descendsMap (mapElemOf e) = true ↔
      e.Kind = .Struct ∨ (∃ e1, e = .ptr e1 ∧ e1.Kind = .Struct) ∨
      (∃ e1, e = .slice e1 ∧ e1.Kind = .Struct) ∨
      (∃ e1, e = .ptr (.slice e1) ∧ e1.Kind = .Struct) := by
  cases e with
  | struct name => simp [descendsMap, mapElemOf, GoType.Kind]
  | slice e1 => simp [descendsMap, mapElemOf, GoType.Kind]
  | ptr e1 =>
    cases e1 with
    | struct name => simp [descendsMap, mapElemOf, GoType.Kind]
    | slice e2 => simp [descendsMap, mapElemOf, GoType.Kind]
    | scalar k name => cases k <;> simp [descendsMap, mapElemOf, GoType.Kind, Scalar.Kind]
    | _ => simp [descendsMap, mapElemOf, GoType.Kind]
  | scalar k name => cases k <;> simp [descendsMap, mapElemOf, GoType.Kind, Scalar.Kind]
  | _ => simp [descendsMap, mapElemOf, GoType.Kind]

/-- The loop over the elements returns the list of `nested` of each. -/
theorem nestedElems_iff (xs ys : List Val) :
    nestedElems xs = .ok ys ↔ List.Forall₂ (fun x y => nested x = .ok y) xs ys := by
  induction xs generalizing ys with
  | nil =>
    simp only [nestedElems, List.forall₂_nil_left_iff]
    constructor
    · intro h
      cases h
      rfl
    · intro h
      rw [h]
  | cons x rest ih =>
    simp only [nestedElems]
    cases hv : nested x with
    | error e =>
      constructor
      · intro h
        cases h
      · intro h
        cases h with
        | cons h1 h2 =>
          rw [hv] at h1
          cases h1
    | ok y =>
      cases hr : nestedElems rest with
      | error e =>
        constructor
        · intro h
          cases h
        · intro h
          cases h with
          | cons h1 h2 =>
            have := (ih _).mpr h2
            rw [hr] at this
            cases this
      | ok ys1 =>
        constructor
        · intro h
          cases h
          exact List.Forall₂.cons hv ((ih ys1).mp hr)
        · intro h
          cases h with
          | cons h1 h2 =>
            rw [hv] at h1
            cases h1
            have := (ih _).mpr h2
            rw [hr] at this
            cases this
            rfl

/-- C19. Let `s` be a slice or array with element type `e` and elements `xs`.
If `e` is a record or a pointer to a record, `nested(s)` returns exactly the
`[]interface{}` of the same length whose `i`-th element is `nested` of the
`i`-th element of `s` (it panics when one of these does), and the empty one for
the nil slice; a nil pointer among the elements stays the nil pointer and a
record without exported field stays the record.  If `e` is anything else,
`nested(s)` is `s` itself. -/
theorem nested_slice_spec (e : GoType) (xs : List Val) :
    ((e.Kind = .Struct ∨ ∃ e1, e = .ptr e1 ∧ e1.Kind = .Struct) →
      (∀ r, nested (.slice e xs) = .ok r ↔
        ∃ ys, r = .slice GoType.any ys ∧ ys.length = xs.length ∧
          List.Forall₂ (fun x y => nested x = .ok y) xs ys) ∧
      (∀ r, nested (.array e xs) = .ok r ↔
        ∃ ys, r = .slice GoType.any ys ∧ ys.length = xs.length ∧
          List.Forall₂ (fun x y => nested x = .ok y) xs ys) ∧
      nested (.nilSlice e) = .ok (.slice GoType.any [])) ∧
    (¬ (e.Kind = .Struct ∨ ∃ e1, e = .ptr e1 ∧ e1.Kind = .Struct) →
      nested (.slice e xs) = .ok (.slice e xs) ∧
      nested (.array e xs) = .ok (.array e xs) ∧
      nested (.nilSlice e) = .ok (.nilSlice e)) ∧
    nested .nilPtr = .ok .nilPtr ∧
    (∀ n fs, exportedFields fs = [] →
      nested (.struct n fs) = .ok (.struct n fs) ∧
      nested (.ptr (.struct n fs)) = .ok (.ptr (.struct n fs))) := by
  have hloop : ∀ r, (match nestedElems xs with
      | .error err => (.error err : Except Panic Val)
      | .ok ys => .ok (.slice GoType.any ys)) = .ok r ↔
      ∃ ys, r = .slice GoType.any ys ∧ ys.length = xs.length ∧
        List.Forall₂ (fun x y => nested x = .ok y) xs ys := by
    intro r
    cases hr : nestedElems xs with
    | error err =>
      constructor
      · intro h
        cases h
      · rintro ⟨ys, -, -, hys⟩
        have := (nestedElems_iff xs ys).mpr hys
        rw [hr] at this
        cases this
    | ok ys1 =>
      have h1 := (nestedElems_iff xs ys1).mp hr
      constructor
      · intro h
        cases h
        exact ⟨ys1, rfl, h1.length_eq.symm, h1⟩
      · rintro ⟨ys, rfl, -, hys⟩
        have := (nestedElems_iff xs ys).mpr hys
        rw [hr] at this
        cases this
        rfl
  refine ⟨fun hd => ?_, fun hd => ?_, rfl, fun n fs hx => ?_⟩
  · have hd1 := (descendsSlice_iff e).mpr hd
    refine ⟨fun r => ?_, fun r => ?_, ?_⟩
    · simp only [nested, hd1, if_true]
      exact hloop r
    · simp only [nested, hd1, if_true]
      exact hloop r
    · simp only [nested, hd1, if_true]
  · have hd1 : descendsSlice e = false := by
      rw [← Bool.not_eq_true, descendsSlice_iff]
      exact hd
    simp [nested, hd1]
  · have h0 : fillLoop (fs.filter Field.kept) [] = .ok [] := by
      rw [← Map_struct n fs]
      exact Map_no_exported (.struct n fs) (.struct n fs) rfl hx
    constructor
    · simp only [nested, fillFields_eq_fillLoop, h0]
      rfl
    · simp only [nested, fillFields_eq_fillLoop, h0]
      rfl

/-- C19 at `[]*Inner{&{1, 2}, nil}`: the record behind the pointer is
flattened and the nil pointer stays. -/
theorem nested_slice_spec_witness :
    nested pointerSlice =
      .ok (.slice GoType.any [.mapSI [("X", int 1), ("Y", int 2)], .nilPtr]) ∧
    nested (.slice (.scalar .Int "int") [int 1, int 2]) =
      .ok (.slice (.scalar .Int "int") [int 1, int 2]) :=
  have h := nested_slice_spec (.ptr (.struct "Inner")) [.ptr (innerRecord 1 2), .nilPtr]
  ⟨((h.1 (Or.inr ⟨_, rfl, rfl⟩)).1 _).mpr
      ⟨_, rfl, rfl, List.Forall₂.cons rfl (List.Forall₂.cons rfl List.Forall₂.nil)⟩,
    ((nested_slice_spec (.scalar .Int "int") [int 1, int 2]).2.1 (by
      rintro (h1 | ⟨e1, h1, -⟩)
      · cases h1
      · cases h1)).1⟩

/-- C20, as stated, fails in its last part: for the map
`map[string]*[]Inner`, whose element type is a pointer to a slice of records,
`nested` does go into the map and returns a new `map[string]interface{}`, the
element under its key, not the map itself. -/
theorem shallow_counterexample :
    nested ptrSliceKeyed =
      .ok (.mapSI [("a", .ptr (.slice (.struct "Inner") [innerRecord 1 2]))]) ∧
    descendsMap (mapElemOf (.ptr (.slice (.struct "Inner")))) = true :=
  ⟨rfl, rfl⟩

/-- C20, amended. A map whose elements are maps of records and a slice whose
elements are slices of records come back from `nested` as they are, the
records inside not flattened.  `nested` goes into a map exactly when its
element type is a record, a slice of records, or a pointer to one of the two,
and then returns a new mapping; it goes into a slice exactly when its element
type is a record or a pointer to a record, and then returns a new slice;
every other map or slice comes back as it is. -/
theorem nested_shallow (k e : GoType) (es : List Entry) (xs : List Val) :
    (∀ k2 e2, nested (.map k (.map k2 e2) es) = .ok (.map k (.map k2 e2) es)) ∧
    (∀ e2, nested (.slice (.slice e2) xs) = .ok (.slice (.slice e2) xs)) ∧
    (descendsMap (mapElemOf e) = true ↔
      e.Kind = .Struct ∨ (∃ e1, e = .ptr e1 ∧ e1.Kind = .Struct) ∨
      (∃ e1, e = .slice e1 ∧ e1.Kind = .Struct) ∨
      (∃ e1, e = .ptr (.slice e1) ∧ e1.Kind = .Struct)) ∧
    (descendsMap (mapElemOf e) = true →
      ∀ r, nested (.map k e es) = .ok r → ∃ m, r = .mapSI m) ∧
    (descendsMap (mapElemOf e) = false → nested (.map k e es) = .ok (.map k e es)) ∧
    (descendsSlice e = true ↔ e.Kind = .Struct ∨ ∃ e1, e = .ptr e1 ∧ e1.Kind = .Struct) ∧
    (descendsSlice e = true →
      ∀ r, nested (.slice e xs) = .ok r → ∃ ys, r = .slice GoType.any ys) ∧
    (descendsSlice e = false → nested (.slice e xs) = .ok (.slice e xs)) := by
  refine ⟨fun k2 e2 => rfl, fun e2 => rfl, descendsMap_iff e, ?_, ?_, descendsSlice_iff e,
    ?_, ?_⟩
  · intro hd r hr
    simp only [nested, hd, if_true] at hr
    cases hm : nestedEntries k es [] with
    | error err =>
      rw [hm] at hr
      cases hr
    | ok m =>
      rw [hm] at hr
      cases hr
      exact ⟨m, rfl⟩
  · intro hd
    simp [nested, hd]
  · intro hd r hr
    simp only [nested, hd, if_true] at hr
    cases hm : nestedElems xs with
    | error err =>
      rw [hm] at hr
      cases hr
    | ok ys =>
      rw [hm] at hr
      cases hr
      exact ⟨ys, rfl⟩
  · intro hd
    simp [nested, hd]

end Inspect
